import Mathlib

/-!
# Verification of the condition/junction query algebra

This file embeds the condition-tree algebra of `autofit/database/query/junction.py`
(the `AbstractJunction` normalization together with its `And`/`Or` subclasses) and
proves properties of the construction, normalization and rendering of query
condition trees.

The junction normalization (`_match_conditions`, `__new__`, `tables`, `__str__`,
`join`) is translated from the source file.  The leaf conditions, `NamedQuery`
and the rendering of full queries live in modules (`condition.py`, `query.py`)
that are not part of the sources; those definitions are modelled from the
specification and are marked as such in their doc comments.

Python `set`s of conditions are represented as canonically sorted duplicate-free
lists, built with a comparator-based insertion sort; structural equality of
conditions plays the role of `__eq__`/`__hash__`, and the canonical total order
plays the role of the order used by `sorted`.
-/

/-- The two junction kinds: `And` and `Or` subclasses of `AbstractJunction`. -/
inductive Kind where
  | and
  | or
deriving DecidableEq

/-- Modelled from the spec: the closed enumeration of physical tables
(`object`, `value`, `string_value`) from the missing `condition.py`. -/
inductive Table where
  | object
  | value
  | string_value
deriving DecidableEq

/-- The condition tree.  `value`/`stringValue` are the leaf conditions
(`NumericCondition`/`StringCondition`, modelled from the spec), `named` is
`NamedQuery` with its optional inner condition (`other_condition` in the
source, absent meaning "match by name only"), and `junction` is an
`AbstractJunction` holding its kind and its member set (represented as a
canonically sorted duplicate-free list). -/
inductive Cond where
  | value (op : String) (lit : Int)
  | stringValue (op : String) (lit : String)
  | named (name : String) (inner : Option Cond)
  | junction (kind : Kind) (members : List Cond)

/-- SQL conjunction word of a junction kind (`And.join` / `Or.join` in the source). -/
def Kind.join : Kind → String
  | .and => "AND"
  | .or => "OR"

/-- A bundle of the laws making a comparator a total order compatible with
structural equality: `.eq` characterizes equality, comparison is oriented,
and strict comparison is transitive. -/
structure CmpLaws {α : Type} (cmp : α → α → Ordering) : Prop where
  eq_iff : ∀ a b, cmp a b = .eq ↔ a = b
  symm : ∀ a b, cmp a b = (cmp b a).swap
  lt_trans : ∀ {a b c}, cmp a b = .lt → cmp b c = .lt → cmp a c = .lt

theorem CmpLaws.refl {α : Type} {cmp : α → α → Ordering} (h : CmpLaws cmp)
    (a : α) : cmp a a = .eq :=
  (h.eq_iff a a).mpr rfl

theorem CmpLaws.gt_iff {α : Type} {cmp : α → α → Ordering} (h : CmpLaws cmp)
    (a b : α) : cmp a b = .gt ↔ cmp b a = .lt := by
  rw [h.symm a b]
  cases cmp b a <;> simp [Ordering.swap]

theorem CmpLaws.lt_ne {α : Type} {cmp : α → α → Ordering} (h : CmpLaws cmp)
    {a b : α} (hlt : cmp a b = .lt) : a ≠ b := by
  intro he
  rw [he, h.refl] at hlt
  exact absurd hlt (by simp)

theorem CmpLaws.lt_irrefl {α : Type} {cmp : α → α → Ordering} (h : CmpLaws cmp)
    (a : α) : cmp a a ≠ .lt := by
  rw [h.refl a]; simp

/-- Comparator derived from a linear order; used for the numeric literal. -/
def cmpOf {α : Type} [LinearOrder α] (a b : α) : Ordering :=
  if a < b then .lt else if b < a then .gt else .eq

theorem cmpOf_laws {α : Type} [LinearOrder α] : CmpLaws (cmpOf (α := α)) := by
  constructor
  · intro a b
    unfold cmpOf
    rcases lt_trichotomy a b with hab | hab | hab
    · simp [hab, hab.ne, not_lt_of_gt hab]
    · simp [hab, lt_irrefl]
    · simp [hab, hab.ne', not_lt_of_gt hab]
  · intro a b
    unfold cmpOf
    rcases lt_trichotomy a b with hab | hab | hab
    · simp [hab, not_lt_of_gt hab, Ordering.swap]
    · simp [hab, lt_irrefl, Ordering.swap]
    · simp [hab, not_lt_of_gt hab, Ordering.swap]
  · intro a b c hab hbc
    unfold cmpOf at *
    split at hab
    · split at hbc
      · simp [lt_trans ‹a < b› ‹b < c›]
      · exact absurd hbc (by split <;> simp)
    · exact absurd hab (by split <;> simp)

/-- Comparator on kinds: `and` before `or`. -/
def cmpKind : Kind → Kind → Ordering
  | .and, .and => .eq
  | .and, .or => .lt
  | .or, .and => .gt
  | .or, .or => .eq

theorem cmpKind_laws : CmpLaws cmpKind := by
  constructor
  · intro a b; cases a <;> cases b <;> simp [cmpKind]
  · intro a b; cases a <;> cases b <;> simp [cmpKind, Ordering.swap]
  · intro a b c hab hbc
    cases a <;> cases b <;> cases c <;> simp_all [cmpKind]

/-- Comparator on strings: the kernel-computable `compare` of the core `Ord`
instance (lexicographic on characters). -/
def strCmp (a b : String) : Ordering := compare a b

theorem strCmp_laws : CmpLaws strCmp := by
  constructor
  · intro a b
    show compare a b = .eq ↔ a = b
    exact Batteries.BEqCmp.cmp_iff_eq
  · intro a b
    show compare a b = (compare b a).swap
    exact Eq.symm (@Batteries.OrientedCmp.symm String compare _ b a)
  · intro a b c hab hbc
    show compare a c = .lt
    exact Batteries.TransCmp.lt_trans hab hbc

/-- Ordered duplicate-free insertion into a canonically sorted list; the
building block of the embedding of Python `set`s of conditions. -/
def insS {α : Type} (cmp : α → α → Ordering) (x : α) : List α → List α
  | [] => [x]
  | y :: ys =>
    match cmp x y with
    | .lt => x :: y :: ys
    | .eq => y :: ys
    | .gt => y :: insS cmp x ys

/-- The canonically sorted duplicate-free list with the same members as `l`:
the embedding of a Python `set` (as later consumed by `sorted`). -/
def canonS {α : Type} (cmp : α → α → Ordering) : List α → List α
  | [] => []
  | x :: xs => insS cmp x (canonS cmp xs)

theorem mem_insS {α : Type} {cmp : α → α → Ordering} (h : CmpLaws cmp)
    {x a : α} : ∀ {l : List α}, a ∈ insS cmp x l ↔ a = x ∨ a ∈ l
  | [] => by simp [insS]
  | y :: ys => by
    unfold insS
    cases hcmp : cmp x y with
    | lt => simp [List.mem_cons]
    | eq =>
      have hxy : x = y := (h.eq_iff x y).mp hcmp
      subst hxy
      simp only [List.mem_cons]
      constructor
      · intro hmem; exact Or.inr hmem
      · rintro (rfl | hmem)
        · exact Or.inl rfl
        · exact hmem
    | gt =>
      simp only [List.mem_cons, mem_insS h (l := ys)]
      tauto

theorem mem_canonS {α : Type} {cmp : α → α → Ordering} (h : CmpLaws cmp)
    {a : α} : ∀ {l : List α}, a ∈ canonS cmp l ↔ a ∈ l
  | [] => by simp [canonS]
  | x :: xs => by
    unfold canonS
    rw [mem_insS h, mem_canonS h (l := xs)]
    simp [List.mem_cons]

theorem sorted_insS {α : Type} {cmp : α → α → Ordering} (h : CmpLaws cmp)
    (x : α) : ∀ {l : List α}, l.Pairwise (fun a b => cmp a b = .lt) →
    (insS cmp x l).Pairwise (fun a b => cmp a b = .lt)
  | [], _ => by simp [insS]
  | y :: ys, hp => by
    rw [List.pairwise_cons] at hp
    obtain ⟨hy, hys⟩ := hp
    unfold insS
    cases hcmp : cmp x y with
    | lt =>
      refine List.pairwise_cons.mpr ⟨?_, List.pairwise_cons.mpr ⟨hy, hys⟩⟩
      intro b hb
      rcases List.mem_cons.mp hb with rfl | hb
      · exact hcmp
      · exact h.lt_trans hcmp (hy b hb)
    | eq => exact List.pairwise_cons.mpr ⟨hy, hys⟩
    | gt =>
      refine List.pairwise_cons.mpr ⟨?_, sorted_insS h x hys⟩
      intro b hb
      rcases (mem_insS h).mp hb with heq | hb
      · rw [heq]
        exact (h.gt_iff x y).mp hcmp
      · exact hy b hb

theorem sorted_canonS {α : Type} {cmp : α → α → Ordering} (h : CmpLaws cmp) :
    ∀ (l : List α), (canonS cmp l).Pairwise (fun a b => cmp a b = .lt)
  | [] => by simp [canonS]
  | x :: xs => sorted_insS h x (sorted_canonS h xs)

theorem nodup_of_sorted {α : Type} {cmp : α → α → Ordering} (h : CmpLaws cmp)
    {l : List α} (hs : l.Pairwise (fun a b => cmp a b = .lt)) : l.Nodup :=
  hs.imp (fun hab => h.lt_ne hab)

/-- Two canonically sorted lists with the same members are equal. -/
theorem sorted_mem_eq {α : Type} {cmp : α → α → Ordering} (h : CmpLaws cmp) :
    ∀ {l₁ l₂ : List α}, l₁.Pairwise (fun a b => cmp a b = .lt) →
      l₂.Pairwise (fun a b => cmp a b = .lt) →
      (∀ a, a ∈ l₁ ↔ a ∈ l₂) → l₁ = l₂
  | [], [], _, _, _ => rfl
  | [], b :: bs, _, _, hm => absurd ((hm b).mpr (List.mem_cons_self b bs)) (by simp)
  | a :: as, [], _, _, hm => absurd ((hm a).mp (List.mem_cons_self a as)) (by simp)
  | a :: as, b :: bs, hp₁, hp₂, hm => by
    rw [List.pairwise_cons] at hp₁ hp₂
    obtain ⟨ha, has⟩ := hp₁
    obtain ⟨hb, hbs⟩ := hp₂
    have hab : a = b := by
      rcases List.mem_cons.mp ((hm a).mp (List.mem_cons_self a as)) with hab | hamem
      · exact hab
      · rcases List.mem_cons.mp ((hm b).mpr (List.mem_cons_self b bs)) with hba | hbmem
        · exact hba.symm
        · exact absurd (h.lt_trans (hb a hamem) (ha b hbmem)) (h.lt_irrefl b)
    have htails : ∀ x, x ∈ as ↔ x ∈ bs := by
      intro x
      constructor
      · intro hx
        have hx₂ : x ∈ b :: bs := (hm x).mp (List.mem_cons_of_mem a hx)
        rcases List.mem_cons.mp hx₂ with hxb | hx'
        · refine absurd (ha x hx) ?_
          rw [hxb, ← hab]
          exact h.lt_irrefl a
        · exact hx'
      · intro hx
        have hx₂ : x ∈ a :: as := (hm x).mpr (List.mem_cons_of_mem b hx)
        rcases List.mem_cons.mp hx₂ with hxa | hx'
        · refine absurd (hb x hx) ?_
          rw [hxa, hab]
          exact h.lt_irrefl b
        · exact hx'
    rw [hab, sorted_mem_eq h has hbs htails]

/-- `canonS` is determined by membership: it equals any sorted list with the
same members. -/
theorem canonS_eq_of_sorted {α : Type} {cmp : α → α → Ordering} (h : CmpLaws cmp)
    {l s : List α} (hs : s.Pairwise (fun a b => cmp a b = .lt))
    (hm : ∀ a, a ∈ l ↔ a ∈ s) : canonS cmp l = s :=
  sorted_mem_eq h (sorted_canonS h l) hs (fun a => (mem_canonS h).trans (hm a))

theorem canonS_congr {α : Type} {cmp : α → α → Ordering} (h : CmpLaws cmp)
    {l₁ l₂ : List α} (hm : ∀ a, a ∈ l₁ ↔ a ∈ l₂) :
    canonS cmp l₁ = canonS cmp l₂ :=
  canonS_eq_of_sorted h (sorted_canonS h l₂)
    (fun a => (hm a).trans (mem_canonS h).symm)

theorem canonS_sorted_id {α : Type} {cmp : α → α → Ordering} (h : CmpLaws cmp)
    {l : List α} (hs : l.Pairwise (fun a b => cmp a b = .lt)) :
    canonS cmp l = l :=
  canonS_eq_of_sorted h hs (fun _ => Iff.rfl)

theorem sum_insS {α : Type} {cmp : α → α → Ordering} (σ : α → Nat) (x : α) :
    ∀ (l : List α), ((insS cmp x l).map σ).sum ≤ σ x + (l.map σ).sum
  | [] => by simp [insS]
  | y :: ys => by
    unfold insS
    cases cmp x y with
    | lt => simp
    | eq => simp [Nat.le_add_left]
    | gt =>
      simp only [List.map_cons, List.sum_cons]
      have := @sum_insS α cmp σ x ys
      omega

theorem sum_canonS {α : Type} {cmp : α → α → Ordering} (σ : α → Nat) :
    ∀ (l : List α), ((canonS cmp l).map σ).sum ≤ (l.map σ).sum
  | [] => by simp [canonS]
  | x :: xs => by
    unfold canonS
    have h₁ := @sum_insS α cmp σ x (canonS cmp xs)
    have h₂ := @sum_canonS α cmp σ xs
    simp only [List.map_cons, List.sum_cons]
    omega

mutual
/-- Structural size of a condition tree, used as recursion fuel. -/
def szC : Cond → Nat
  | .value _ _ => 1
  | .stringValue _ _ => 1
  | .named _ none => 1
  | .named _ (some c) => 2 + szC c
  | .junction _ ms => 1 + szL ms
/-- Structural size of a list of condition trees. -/
def szL : List Cond → Nat
  | [] => 0
  | c :: cs => szC c + szL cs
end

/-- Size of an optional condition (an absent condition weighs nothing). -/
def szO : Option Cond → Nat
  | none => 0
  | some c => szC c

/-- Total size of a list of optional conditions. -/
def szLO : List (Option Cond) → Nat
  | [] => 0
  | o :: os => szO o + szLO os

theorem one_le_szC : ∀ c : Cond, 1 ≤ szC c := by
  intro c
  cases c with
  | value op l => simp [szC]
  | stringValue op l => simp [szC]
  | named n i => cases i <;> simp [szC] <;> omega
  | junction k ms => simp [szC]

theorem szC_le_szL_of_mem : ∀ {ms : List Cond} {x : Cond}, x ∈ ms → szC x ≤ szL ms := by
  intro ms
  induction ms with
  | nil => intro x hx; simp at hx
  | cons c cs ih =>
    intro x hx
    rcases List.mem_cons.mp hx with rfl | hx
    · simp [szL]
    · have := ih hx
      simp [szL]
      omega

/-- Lexicographic comparison of member lists, parameterized by the element
comparator. -/
def cmpListWith (r : Cond → Cond → Ordering) : List Cond → List Cond → Ordering
  | [], [] => .eq
  | [], _ :: _ => .lt
  | _ :: _, [] => .gt
  | a :: as, b :: bs => (r a b).then (cmpListWith r as bs)

/-- Comparison of optional inner conditions: absent sorts first. -/
def cmpOptWith (r : Cond → Cond → Ordering) : Option Cond → Option Cond → Ordering
  | none, none => .eq
  | none, some _ => .lt
  | some _, none => .gt
  | some a, some b => r a b

/-- One layer of the canonical condition order: variant tag first
(value, string value, named query, junction), then the fields
lexicographically, recursing through `rec`. -/
def cmpBody (rec : Cond → Cond → Ordering) : Cond → Cond → Ordering
  | .value op l, .value op' l' => (strCmp op op').then (cmpOf l l')
  | .value _ _, _ => .lt
  | .stringValue _ _, .value _ _ => .gt
  | .stringValue op l, .stringValue op' l' => (strCmp op op').then (strCmp l l')
  | .stringValue _ _, _ => .lt
  | .named _ _, .value _ _ => .gt
  | .named _ _, .stringValue _ _ => .gt
  | .named n i, .named n' i' => (strCmp n n').then (cmpOptWith rec i i')
  | .named _ _, .junction _ _ => .lt
  | .junction k ms, .junction k' ms' => (cmpKind k k').then (cmpListWith rec ms ms')
  | .junction _ _, _ => .gt

theorem cmpListWith_congr {r₁ r₂ : Cond → Cond → Ordering} :
    ∀ (l₁ : List Cond), (∀ x ∈ l₁, ∀ y, r₁ x y = r₂ x y) →
      ∀ (l₂ : List Cond), cmpListWith r₁ l₁ l₂ = cmpListWith r₂ l₁ l₂
  | [], _, [] => rfl
  | [], _, _ :: _ => rfl
  | _ :: _, _, [] => rfl
  | a :: as, h, b :: bs => by
    simp only [cmpListWith]
    rw [h a (by simp) b, cmpListWith_congr as (fun x hx => h x (by simp [hx])) bs]

theorem cmpBody_congr (a b : Cond) {r₁ r₂ : Cond → Cond → Ordering}
    (hr : ∀ x y, szC x < szC a → r₁ x y = r₂ x y) :
    cmpBody r₁ a b = cmpBody r₂ a b := by
  cases a with
  | value op l => cases b <;> rfl
  | stringValue op l => cases b <;> rfl
  | named nm i =>
    cases b with
    | value op' l' => rfl
    | stringValue op' l' => rfl
    | junction k' ms' => rfl
    | named nm' i' =>
      simp only [cmpBody]
      congr 1
      cases i with
      | none => cases i' <;> rfl
      | some ci =>
        cases i' with
        | none => rfl
        | some ci' =>
          refine hr ci ci' ?_
          simp [szC]
  | junction k ms =>
    cases b with
    | value op' l' => rfl
    | stringValue op' l' => rfl
    | named nm' i' => rfl
    | junction k' ms' =>
      simp only [cmpBody]
      congr 1
      refine cmpListWith_congr ms ?_ ms'
      intro x hx y
      refine hr x y ?_
      have := szC_le_szL_of_mem hx
      simp [szC]
      omega

/-- Fuelled canonical condition comparator. -/
def cmpF : Nat → Cond → Cond → Ordering
  | 0, _, _ => .eq
  | f + 1, a, b => cmpBody (cmpF f) a b

theorem cmpF_congr : ∀ (n : Nat) {f g : Nat} (a b : Cond),
    szC a ≤ n → szC a ≤ f → szC a ≤ g → cmpF f a b = cmpF g a b := by
  intro n
  induction n with
  | zero =>
    intro f g a b hn _ _
    have := one_le_szC a
    omega
  | succ n ih =>
    intro f g a b hn hf hg
    obtain ⟨f', rfl⟩ : ∃ f', f = f' + 1 := ⟨f - 1, by have := one_le_szC a; omega⟩
    obtain ⟨g', rfl⟩ : ∃ g', g = g' + 1 := ⟨g - 1, by have := one_le_szC a; omega⟩
    simp only [cmpF]
    apply cmpBody_congr
    intro x y hxy
    exact ih x y (by omega) (by omega) (by omega)

/-- Modelled from the spec: the canonical total order over conditions
("order first by variant tag, then by recursively-ordered fields"), standing
in for the ordering of the missing `condition.py` that Python's `sorted` and
the set-based normalization rely on. -/
def Cond.cmp (a b : Cond) : Ordering := cmpF (szC a) a b

theorem cmp_unfold (a b : Cond) : Cond.cmp a b = cmpBody Cond.cmp a b := by
  unfold Cond.cmp
  obtain ⟨m, hm⟩ : ∃ m, szC a = m + 1 := ⟨szC a - 1, by have := one_le_szC a; omega⟩
  rw [hm]
  simp only [cmpF]
  apply cmpBody_congr
  intro x y hxy
  exact cmpF_congr (szC x) x y le_rfl (by omega) le_rfl

/-- Variant tag of a condition, the primary key of the canonical order. -/
def tagC : Cond → Nat
  | .value _ _ => 0
  | .stringValue _ _ => 1
  | .named _ _ => 2
  | .junction _ _ => 3

theorem cmp_lt_of_tag {a b : Cond} (h : tagC a < tagC b) : Cond.cmp a b = .lt := by
  rw [cmp_unfold]
  cases a <;> cases b <;> simp [cmpBody, tagC] at h ⊢

theorem tag_le_of_cmp_lt {a b : Cond} (h : Cond.cmp a b = .lt) : tagC a ≤ tagC b := by
  rw [cmp_unfold] at h
  cases a <;> cases b <;> simp [cmpBody, tagC] at h ⊢ <;> omega

theorem cmpListWith_eq_iff {r : Cond → Cond → Ordering} :
    ∀ (l₁ : List Cond), (∀ x ∈ l₁, ∀ y, r x y = .eq ↔ x = y) →
      ∀ (l₂ : List Cond), (cmpListWith r l₁ l₂ = .eq ↔ l₁ = l₂)
  | [], _, [] => by simp [cmpListWith]
  | [], _, _ :: _ => by simp [cmpListWith]
  | _ :: _, _, [] => by simp [cmpListWith]
  | a :: as, h, b :: bs => by
    simp only [cmpListWith, Ordering.then_eq_eq, List.cons.injEq]
    rw [h a (by simp) b, cmpListWith_eq_iff as (fun x hx => h x (by simp [hx])) bs]

theorem cmp_eq_iff_aux : ∀ (n : Nat) (a b : Cond), szC a ≤ n →
    (Cond.cmp a b = .eq ↔ a = b) := by
  intro n
  induction n with
  | zero =>
    intro a b hn
    have := one_le_szC a
    omega
  | succ n ih =>
    intro a b hn
    rw [cmp_unfold]
    cases a with
    | value op l =>
      cases b <;> simp [cmpBody, Ordering.then_eq_eq, strCmp_laws.eq_iff, cmpOf_laws.eq_iff]
    | stringValue op l =>
      cases b <;> simp [cmpBody, Ordering.then_eq_eq, strCmp_laws.eq_iff]
    | named nm i =>
      cases b with
      | value op' l' => simp [cmpBody]
      | stringValue op' l' => simp [cmpBody]
      | junction k' ms' => simp [cmpBody]
      | named nm' i' =>
        have hopt : cmpOptWith Cond.cmp i i' = .eq ↔ i = i' := by
          cases i with
          | none => cases i' <;> simp [cmpOptWith]
          | some ci =>
            cases i' with
            | none => simp [cmpOptWith]
            | some ci' =>
              simp only [cmpOptWith, Option.some.injEq]
              refine ih ci ci' ?_
              simp [szC] at hn
              omega
        simp only [cmpBody, Ordering.then_eq_eq, Cond.named.injEq, strCmp_laws.eq_iff, hopt]
    | junction k ms =>
      cases b with
      | value op' l' => simp [cmpBody]
      | stringValue op' l' => simp [cmpBody]
      | named nm' i' => simp [cmpBody]
      | junction k' ms' =>
        have hl : cmpListWith Cond.cmp ms ms' = .eq ↔ ms = ms' := by
          refine cmpListWith_eq_iff ms ?_ ms'
          intro x hx y
          refine ih x y ?_
          have := szC_le_szL_of_mem hx
          simp [szC] at hn
          omega
        simp only [cmpBody, Ordering.then_eq_eq, Cond.junction.injEq,
          cmpKind_laws.eq_iff, hl]

theorem cmp_eq_iff (a b : Cond) : Cond.cmp a b = .eq ↔ a = b :=
  cmp_eq_iff_aux (szC a) a b le_rfl

instance : DecidableEq Cond := fun a b =>
  decidable_of_iff (Cond.cmp a b = .eq) (cmp_eq_iff a b)

theorem cmpListWith_symm {r : Cond → Cond → Ordering} :
    ∀ (l₁ : List Cond), (∀ x ∈ l₁, ∀ y, r x y = (r y x).swap) →
      ∀ (l₂ : List Cond), cmpListWith r l₁ l₂ = (cmpListWith r l₂ l₁).swap
  | [], _, [] => rfl
  | [], _, _ :: _ => rfl
  | _ :: _, _, [] => rfl
  | a :: as, h, b :: bs => by
    simp only [cmpListWith, Ordering.swap_then]
    rw [h a (by simp) b, cmpListWith_symm as (fun x hx => h x (by simp [hx])) bs]

theorem cmp_symm_aux : ∀ (n : Nat) (a b : Cond), szC a ≤ n →
    Cond.cmp a b = (Cond.cmp b a).swap := by
  intro n
  induction n with
  | zero =>
    intro a b hn
    have := one_le_szC a
    omega
  | succ n ih =>
    intro a b hn
    rw [cmp_unfold a b, cmp_unfold b a]
    cases a with
    | value op l =>
      cases b with
      | value op' l' =>
        simp only [cmpBody, Ordering.swap_then]
        rw [strCmp_laws.symm op op', cmpOf_laws.symm l l']
      | stringValue op' l' => simp [cmpBody, Ordering.swap]
      | named nm' i' => simp [cmpBody, Ordering.swap]
      | junction k' ms' => simp [cmpBody, Ordering.swap]
    | stringValue op l =>
      cases b with
      | value op' l' => simp [cmpBody, Ordering.swap]
      | stringValue op' l' =>
        simp only [cmpBody, Ordering.swap_then]
        rw [strCmp_laws.symm op op', strCmp_laws.symm l l']
      | named nm' i' => simp [cmpBody, Ordering.swap]
      | junction k' ms' => simp [cmpBody, Ordering.swap]
    | named nm i =>
      cases b with
      | value op' l' => simp [cmpBody, Ordering.swap]
      | stringValue op' l' => simp [cmpBody, Ordering.swap]
      | junction k' ms' => simp [cmpBody, Ordering.swap]
      | named nm' i' =>
        have hopt : cmpOptWith Cond.cmp i i' = (cmpOptWith Cond.cmp i' i).swap := by
          cases i with
          | none => cases i' <;> simp [cmpOptWith, Ordering.swap]
          | some ci =>
            cases i' with
            | none => simp [cmpOptWith, Ordering.swap]
            | some ci' =>
              simp only [cmpOptWith]
              refine ih ci ci' ?_
              simp [szC] at hn
              omega
        simp only [cmpBody, Ordering.swap_then, hopt, strCmp_laws.symm nm nm']
    | junction k ms =>
      cases b with
      | value op' l' => simp [cmpBody, Ordering.swap]
      | stringValue op' l' => simp [cmpBody, Ordering.swap]
      | named nm' i' => simp [cmpBody, Ordering.swap]
      | junction k' ms' =>
        have hl : cmpListWith Cond.cmp ms ms' = (cmpListWith Cond.cmp ms' ms).swap := by
          refine cmpListWith_symm ms ?_ ms'
          intro x hx y
          refine ih x y ?_
          have := szC_le_szL_of_mem hx
          simp [szC] at hn
          omega
        simp only [cmpBody, Ordering.swap_then, hl, cmpKind_laws.symm k k']

theorem cmp_symm (a b : Cond) : Cond.cmp a b = (Cond.cmp b a).swap :=
  cmp_symm_aux (szC a) a b le_rfl

theorem cmpListWith_lt_trans {r : Cond → Cond → Ordering}
    (heq : ∀ x y, r x y = .eq ↔ x = y) :
    ∀ (l₁ : List Cond), (∀ x ∈ l₁, ∀ y z, r x y = .lt → r y z = .lt → r x z = .lt) →
    ∀ (l₂ l₃ : List Cond), cmpListWith r l₁ l₂ = .lt → cmpListWith r l₂ l₃ = .lt →
      cmpListWith r l₁ l₃ = .lt := by
  intro l₁
  induction l₁ with
  | nil =>
    intro _ l₂ l₃ h₁₂ h₂₃
    cases l₂ with
    | nil => cases l₃ <;> simp_all [cmpListWith]
    | cons b bs =>
      cases l₃ with
      | nil => simp_all [cmpListWith]
      | cons c cs => simp [cmpListWith]
  | cons a as ih =>
    intro h l₂ l₃ h₁₂ h₂₃
    cases l₂ with
    | nil => simp_all [cmpListWith]
    | cons b bs =>
      cases l₃ with
      | nil => simp_all [cmpListWith]
      | cons c cs =>
        simp only [cmpListWith, Ordering.then_eq_lt] at h₁₂ h₂₃ ⊢
        rcases h₁₂ with hab | ⟨hab, htab⟩
        · rcases h₂₃ with hbc | ⟨hbc, htbc⟩
          · exact Or.inl (h a (by simp) b c hab hbc)
          · have hbceq : b = c := (heq b c).mp hbc
            subst hbceq
            exact Or.inl hab
        · have habeq : a = b := (heq a b).mp hab
          subst habeq
          rcases h₂₃ with hbc | ⟨hbc, htbc⟩
          · exact Or.inl hbc
          · exact Or.inr ⟨hbc, ih (fun x hx y z => h x (by simp [hx]) y z) bs cs htab htbc⟩

theorem cmp_lt_trans_aux : ∀ (n : Nat) (a b c : Cond), szC a ≤ n →
    Cond.cmp a b = .lt → Cond.cmp b c = .lt → Cond.cmp a c = .lt := by
  intro n
  induction n with
  | zero =>
    intro a b c hn _ _
    have := one_le_szC a
    omega
  | succ n ih =>
    intro a b c hn h₁ h₂
    rw [cmp_unfold] at h₁ h₂ ⊢
    cases a with
    | value op l =>
      cases b with
      | value op' l' =>
        cases c with
        | stringValue op'' l'' => rfl
        | named nm'' i'' => rfl
        | junction k'' ms'' => rfl
        | value op'' l'' =>
          simp only [cmpBody, Ordering.then_eq_lt] at h₁ h₂ ⊢
          rcases h₁ with h | ⟨h, hv₁⟩
          · rcases h₂ with h' | ⟨h', hv₂⟩
            · exact Or.inl (strCmp_laws.lt_trans h h')
            · have heq := (strCmp_laws.eq_iff _ _).mp h'
              subst heq
              exact Or.inl h
          · have heq := (strCmp_laws.eq_iff _ _).mp h
            subst heq
            rcases h₂ with h' | ⟨h', hv₂⟩
            · exact Or.inl h'
            · have heq' := (strCmp_laws.eq_iff _ _).mp h'
              subst heq'
              exact Or.inr ⟨strCmp_laws.refl _, cmpOf_laws.lt_trans hv₁ hv₂⟩
      | stringValue op' l' => cases c <;> first | rfl | simp [cmpBody] at h₂
      | named nm' i' => cases c <;> first | rfl | simp [cmpBody] at h₂
      | junction k' ms' => cases c <;> first | rfl | simp [cmpBody] at h₂
    | stringValue op l =>
      cases b with
      | value op' l' => simp [cmpBody] at h₁
      | stringValue op' l' =>
        cases c with
        | value op'' l'' => simp [cmpBody] at h₂
        | named nm'' i'' => rfl
        | junction k'' ms'' => rfl
        | stringValue op'' l'' =>
          simp only [cmpBody, Ordering.then_eq_lt] at h₁ h₂ ⊢
          rcases h₁ with h | ⟨h, hv₁⟩
          · rcases h₂ with h' | ⟨h', hv₂⟩
            · exact Or.inl (strCmp_laws.lt_trans h h')
            · have heq := (strCmp_laws.eq_iff _ _).mp h'
              subst heq
              exact Or.inl h
          · have heq := (strCmp_laws.eq_iff _ _).mp h
            subst heq
            rcases h₂ with h' | ⟨h', hv₂⟩
            · exact Or.inl h'
            · have heq' := (strCmp_laws.eq_iff _ _).mp h'
              subst heq'
              exact Or.inr ⟨strCmp_laws.refl _, strCmp_laws.lt_trans hv₁ hv₂⟩
      | named nm' i' => cases c <;> first | rfl | simp [cmpBody] at h₂
      | junction k' ms' => cases c <;> first | rfl | simp [cmpBody] at h₂
    | named nm i =>
      cases b with
      | value op' l' => simp [cmpBody] at h₁
      | stringValue op' l' => simp [cmpBody] at h₁
      | junction k' ms' => cases c <;> first | rfl | simp [cmpBody] at h₂
      | named nm' i' =>
        cases c with
        | value op'' l'' => simp [cmpBody] at h₂
        | stringValue op'' l'' => simp [cmpBody] at h₂
        | junction k'' ms'' => rfl
        | named nm'' i'' =>
          simp only [cmpBody, Ordering.then_eq_lt] at h₁ h₂ ⊢
          rcases h₁ with h | ⟨h, ho₁⟩
          · rcases h₂ with h' | ⟨h', ho₂⟩
            · exact Or.inl (strCmp_laws.lt_trans h h')
            · have heq := (strCmp_laws.eq_iff _ _).mp h'
              subst heq
              exact Or.inl h
          · have heq := (strCmp_laws.eq_iff _ _).mp h
            subst heq
            rcases h₂ with h' | ⟨h', ho₂⟩
            · exact Or.inl h'
            · have heq' := (strCmp_laws.eq_iff _ _).mp h'
              subst heq'
              refine Or.inr ⟨strCmp_laws.refl _, ?_⟩
              cases i with
              | none =>
                cases i'' with
                | none =>
                  cases i' with
                  | none => simpa [cmpOptWith] using ho₁
                  | some _ => simpa [cmpOptWith] using ho₂
                | some _ => simp [cmpOptWith]
              | some ci =>
                cases i' with
                | none => simp [cmpOptWith] at ho₁
                | some ci' =>
                  cases i'' with
                  | none => simp [cmpOptWith] at ho₂
                  | some ci'' =>
                    simp only [cmpOptWith] at ho₁ ho₂ ⊢
                    refine ih ci ci' ci'' ?_ ho₁ ho₂
                    simp [szC] at hn
                    omega
    | junction k ms =>
      cases b with
      | value op' l' => simp [cmpBody] at h₁
      | stringValue op' l' => simp [cmpBody] at h₁
      | named nm' i' => simp [cmpBody] at h₁
      | junction k' ms' =>
        cases c with
        | value op'' l'' => simp [cmpBody] at h₂
        | stringValue op'' l'' => simp [cmpBody] at h₂
        | named nm'' i'' => simp [cmpBody] at h₂
        | junction k'' ms'' =>
          simp only [cmpBody, Ordering.then_eq_lt] at h₁ h₂ ⊢
          rcases h₁ with h | ⟨h, hl₁⟩
          · rcases h₂ with h' | ⟨h', hl₂⟩
            · exact Or.inl (cmpKind_laws.lt_trans h h')
            · have heq := (cmpKind_laws.eq_iff _ _).mp h'
              subst heq
              exact Or.inl h
          · have heq := (cmpKind_laws.eq_iff _ _).mp h
            subst heq
            rcases h₂ with h' | ⟨h', hl₂⟩
            · exact Or.inl h'
            · have heq' := (cmpKind_laws.eq_iff _ _).mp h'
              subst heq'
              refine Or.inr ⟨cmpKind_laws.refl _, ?_⟩
              refine cmpListWith_lt_trans cmp_eq_iff ms ?_ ms' ms'' hl₁ hl₂
              intro x hx y z hxy hyz
              refine ih x y z ?_ hxy hyz
              have := szC_le_szL_of_mem hx
              simp [szC] at hn
              omega

theorem cmp_lt_trans {a b c : Cond} (h₁ : Cond.cmp a b = .lt)
    (h₂ : Cond.cmp b c = .lt) : Cond.cmp a c = .lt :=
  cmp_lt_trans_aux (szC a) a b c le_rfl h₁ h₂

/-- The canonical condition order satisfies the total-order laws. -/
theorem condCmpLaws : CmpLaws Cond.cmp :=
  ⟨cmp_eq_iff, cmp_symm, fun h₁ h₂ => cmp_lt_trans h₁ h₂⟩

/-- The `isinstance(condition, NamedQuery)` test of the source. -/
def Cond.isNamed : Cond → Bool
  | .named _ _ => true
  | _ => false

/-- The `condition.name` attribute of a `NamedQuery`, absent otherwise. -/
def nameOf? : Cond → Option String
  | .named n _ => some n
  | _ => none

/-- The `query.other_condition` attribute of a `NamedQuery` (its optional
inner condition), absent for other condition forms. -/
def innerOf : Cond → Option Cond
  | .named _ i => i
  | _ => none

/-- The `isinstance(condition, cls)` test for a junction of kind `k`. -/
def isJunctionOf (k : Kind) : Cond → Bool
  | .junction k' _ => k' == k
  | _ => false

/-- Fuelled flattening traversal: `add_conditions` of `_match_conditions`
walks the inputs, recursing into junctions of the same kind. -/
def flattenF : Nat → Kind → List Cond → List Cond
  | 0, _, _ => []
  | f + 1, k, l =>
    match l with
    | [] => []
    | .junction k' ms :: rest =>
      if k' = k then flattenF f k ms ++ flattenF f k rest
      else .junction k' ms :: flattenF f k rest
    | c :: rest => c :: flattenF f k rest

theorem szL_nonneg_cons (c : Cond) (l : List Cond) : 1 ≤ szL (c :: l) := by
  have := one_le_szC c
  simp [szL]
  omega

theorem flattenF_congr : ∀ (n : Nat) {f g : Nat} (k : Kind) (l : List Cond),
    szL l ≤ n → szL l ≤ f → szL l ≤ g → flattenF f k l = flattenF g k l := by
  intro n
  induction n with
  | zero =>
    intro f g k l hn hf hg
    cases l with
    | nil => cases f <;> cases g <;> rfl
    | cons c rest =>
      have := szL_nonneg_cons c rest
      omega
  | succ n ih =>
    intro f g k l hn hf hg
    cases l with
    | nil => cases f <;> cases g <;> rfl
    | cons c rest =>
      have h1 := szL_nonneg_cons c rest
      obtain ⟨f', rfl⟩ : ∃ f', f = f' + 1 := ⟨f - 1, by omega⟩
      obtain ⟨g', rfl⟩ : ∃ g', g = g' + 1 := ⟨g - 1, by omega⟩
      cases c with
      | junction k' ms =>
        have hstep : szL (Cond.junction k' ms :: rest) = 1 + szL ms + szL rest := by
          simp [szL, szC]
        rw [hstep] at hn hf hg
        simp only [flattenF]
        by_cases hk : k' = k
        · simp only [hk, if_pos rfl]
          rw [ih (f := f') (g := g') k ms (by omega) (by omega) (by omega),
            ih (f := f') (g := g') k rest (by omega) (by omega) (by omega)]
        · simp only [if_neg hk]
          rw [ih (f := f') (g := g') k rest (by omega) (by omega) (by omega)]
      | value op l' =>
        have hstep : szL (Cond.value op l' :: rest) = 1 + szL rest := by simp [szL, szC]
        rw [hstep] at hn hf hg
        simp only [flattenF]
        rw [ih (f := f') (g := g') k rest (by omega) (by omega) (by omega)]
      | stringValue op l' =>
        have hstep : szL (Cond.stringValue op l' :: rest) = 1 + szL rest := by simp [szL, szC]
        rw [hstep] at hn hf hg
        simp only [flattenF]
        rw [ih (f := f') (g := g') k rest (by omega) (by omega) (by omega)]
      | named nm i =>
        have hstep : 1 + szL rest ≤ szL (Cond.named nm i :: rest) := by
          have := one_le_szC (Cond.named nm i)
          simp [szL]
          omega
        simp only [flattenF]
        rw [ih (f := f') (g := g') k rest (by omega) (by omega) (by omega)]

/-- The flattening pass of `add_conditions`: inputs that are junctions of the
same kind are replaced by their members, recursively. -/
def flattenInto (k : Kind) (l : List Cond) : List Cond := flattenF (szL l) k l

theorem flattenInto_nil (k : Kind) : flattenInto k [] = [] := rfl

theorem flattenF_eq_flattenInto {f : Nat} (k : Kind) (l : List Cond)
    (hf : szL l ≤ f) : flattenF f k l = flattenInto k l :=
  flattenF_congr (szL l) k l le_rfl hf le_rfl

theorem szL_cons (c : Cond) (l : List Cond) : szL (c :: l) = szC c + szL l := rfl

theorem flattenInto_cons_same (k : Kind) (ms rest : List Cond) :
    flattenInto k (.junction k ms :: rest) = flattenInto k ms ++ flattenInto k rest := by
  have h1 := szL_nonneg_cons (Cond.junction k ms) rest
  have hstep : szL (Cond.junction k ms :: rest) = 1 + szL ms + szL rest := by
    simp [szL, szC]
  obtain ⟨f', hf⟩ : ∃ f', szL (Cond.junction k ms :: rest) = f' + 1 :=
    ⟨szL (Cond.junction k ms :: rest) - 1, by omega⟩
  have hbase : flattenInto k (Cond.junction k ms :: rest)
      = flattenF (f' + 1) k (Cond.junction k ms :: rest) := by
    rw [flattenInto, hf]
  rw [hbase]
  show (if k = k then flattenF f' k ms ++ flattenF f' k rest
      else Cond.junction k ms :: flattenF f' k rest) = _
  rw [if_pos rfl, flattenF_eq_flattenInto k ms (by omega),
    flattenF_eq_flattenInto k rest (by omega)]

theorem flattenInto_cons_diff {k k' : Kind} (hk : ¬ k' = k) (ms rest : List Cond) :
    flattenInto k (.junction k' ms :: rest) = .junction k' ms :: flattenInto k rest := by
  have h1 := szL_nonneg_cons (Cond.junction k' ms) rest
  have hstep : szL (Cond.junction k' ms :: rest) = 1 + szL ms + szL rest := by
    simp [szL, szC]
  obtain ⟨f', hf⟩ : ∃ f', szL (Cond.junction k' ms :: rest) = f' + 1 :=
    ⟨szL (Cond.junction k' ms :: rest) - 1, by omega⟩
  have hbase : flattenInto k (Cond.junction k' ms :: rest)
      = flattenF (f' + 1) k (Cond.junction k' ms :: rest) := by
    rw [flattenInto, hf]
  rw [hbase]
  show (if k' = k then flattenF f' k ms ++ flattenF f' k rest
      else Cond.junction k' ms :: flattenF f' k rest) = _
  rw [if_neg hk, flattenF_eq_flattenInto k rest (by omega)]

theorem flattenInto_cons_other {k : Kind} {c : Cond} (rest : List Cond)
    (hc : isJunctionOf k c = false) :
    flattenInto k (c :: rest) = c :: flattenInto k rest := by
  have h1 := szL_nonneg_cons c rest
  have hc1 := one_le_szC c
  have hstep := szL_cons c rest
  obtain ⟨f', hf⟩ : ∃ f', szL (c :: rest) = f' + 1 := ⟨szL (c :: rest) - 1, by omega⟩
  have hbase : flattenInto k (c :: rest) = flattenF (f' + 1) k (c :: rest) := by
    rw [flattenInto, hf]
  rw [hbase]
  cases c with
  | junction k' ms =>
    simp only [isJunctionOf, beq_eq_false_iff_ne, ne_eq] at hc
    show (if k' = k then flattenF f' k ms ++ flattenF f' k rest
        else Cond.junction k' ms :: flattenF f' k rest) = _
    rw [if_neg hc, flattenF_eq_flattenInto k rest (by omega)]
  | value op l' =>
    show Cond.value op l' :: flattenF f' k rest = _
    rw [flattenF_eq_flattenInto k rest (by omega)]
  | stringValue op l' =>
    show Cond.stringValue op l' :: flattenF f' k rest = _
    rw [flattenF_eq_flattenInto k rest (by omega)]
  | named nm i =>
    show Cond.named nm i :: flattenF f' k rest = _
    rw [flattenF_eq_flattenInto k rest (by omega)]

theorem flattenInto_append (k : Kind) : ∀ (l₁ l₂ : List Cond),
    flattenInto k (l₁ ++ l₂) = flattenInto k l₁ ++ flattenInto k l₂ := by
  intro l₁
  induction l₁ with
  | nil => intro l₂; simp [flattenInto_nil]
  | cons c l₁' ih =>
    intro l₂
    cases c with
    | junction k' ms =>
      by_cases hk : k' = k
      · subst hk
        rw [List.cons_append, flattenInto_cons_same, flattenInto_cons_same, ih,
          List.append_assoc]
      · rw [List.cons_append, flattenInto_cons_diff hk, flattenInto_cons_diff hk, ih,
          List.cons_append]
    | value op l' =>
      rw [List.cons_append, flattenInto_cons_other (c := Cond.value op l') _ rfl,
        flattenInto_cons_other (c := Cond.value op l') _ rfl, ih, List.cons_append]
    | stringValue op l' =>
      rw [List.cons_append, flattenInto_cons_other (c := Cond.stringValue op l') _ rfl,
        flattenInto_cons_other (c := Cond.stringValue op l') _ rfl, ih, List.cons_append]
    | named nm i =>
      rw [List.cons_append, flattenInto_cons_other (c := Cond.named nm i) _ rfl,
        flattenInto_cons_other (c := Cond.named nm i) _ rfl, ih, List.cons_append]

theorem not_isJunctionOf_flattenInto {k : Kind} : ∀ (n : Nat) (l : List Cond),
    szL l ≤ n → ∀ x ∈ flattenInto k l, isJunctionOf k x = false := by
  intro n
  induction n with
  | zero =>
    intro l hn x hx
    cases l with
    | nil => simp [flattenInto_nil] at hx
    | cons c rest =>
      have := szL_nonneg_cons c rest
      omega
  | succ n ih =>
    intro l hn x hx
    cases l with
    | nil => simp [flattenInto_nil] at hx
    | cons c rest =>
      have hc1 := one_le_szC c
      have hstep := szL_cons c rest
      cases c with
      | junction k' ms =>
        have hj : szL (Cond.junction k' ms :: rest) = 1 + szL ms + szL rest := by
          simp [szL, szC]
        by_cases hk : k' = k
        · subst hk
          rw [flattenInto_cons_same] at hx
          rcases List.mem_append.mp hx with hx | hx
          · exact ih ms (by omega) x hx
          · exact ih rest (by omega) x hx
        · rw [flattenInto_cons_diff hk] at hx
          rcases List.mem_cons.mp hx with rfl | hx
          · simp [isJunctionOf, hk]
          · exact ih rest (by omega) x hx
      | value op l' =>
        rw [flattenInto_cons_other (c := Cond.value op l') _ rfl] at hx
        rcases List.mem_cons.mp hx with rfl | hx
        · rfl
        · exact ih rest (by omega) x hx
      | stringValue op l' =>
        rw [flattenInto_cons_other (c := Cond.stringValue op l') _ rfl] at hx
        rcases List.mem_cons.mp hx with rfl | hx
        · rfl
        · exact ih rest (by omega) x hx
      | named nm i =>
        rw [flattenInto_cons_other (c := Cond.named nm i) _ rfl] at hx
        rcases List.mem_cons.mp hx with rfl | hx
        · rfl
        · exact ih rest (by omega) x hx

theorem mem_flattenInto_not_same {k : Kind} {l : List Cond} {x : Cond}
    (hx : x ∈ flattenInto k l) : isJunctionOf k x = false :=
  not_isJunctionOf_flattenInto (szL l) l le_rfl x hx

theorem flattenInto_id {k : Kind} : ∀ {l : List Cond},
    (∀ c ∈ l, isJunctionOf k c = false) → flattenInto k l = l := by
  intro l
  induction l with
  | nil => intro _; rfl
  | cons c rest ih =>
    intro h
    rw [flattenInto_cons_other _ (h c (by simp)), ih (fun c hc => h c (by simp [hc]))]

theorem szL_append : ∀ (l₁ l₂ : List Cond), szL (l₁ ++ l₂) = szL l₁ + szL l₂ := by
  intro l₁
  induction l₁ with
  | nil => intro l₂; simp [szL]
  | cons c rest ih =>
    intro l₂
    simp only [List.cons_append, szL_cons, ih]
    omega

theorem szL_flattenInto_le {k : Kind} : ∀ (n : Nat) (l : List Cond),
    szL l ≤ n → szL (flattenInto k l) ≤ szL l := by
  intro n
  induction n with
  | zero =>
    intro l hn
    cases l with
    | nil => simp [flattenInto_nil]
    | cons c rest =>
      have := szL_nonneg_cons c rest
      omega
  | succ n ih =>
    intro l hn
    cases l with
    | nil => simp [flattenInto_nil]
    | cons c rest =>
      have hc1 := one_le_szC c
      have hstep := szL_cons c rest
      cases c with
      | junction k' ms =>
        have hj : szL (Cond.junction k' ms :: rest) = 1 + szL ms + szL rest := by
          simp [szL, szC]
        by_cases hk : k' = k
        · subst hk
          rw [flattenInto_cons_same, szL_append]
          have h₁ := ih ms (by omega)
          have h₂ := ih rest (by omega)
          omega
        · rw [flattenInto_cons_diff hk, szL_cons]
          have h₂ := ih rest (by omega)
          omega
      | value op l' =>
        rw [flattenInto_cons_other (c := Cond.value op l') _ rfl, szL_cons]
        have h₂ := ih rest (by omega)
        omega
      | stringValue op l' =>
        rw [flattenInto_cons_other (c := Cond.stringValue op l') _ rfl, szL_cons]
        have h₂ := ih rest (by omega)
        omega
      | named nm i =>
        rw [flattenInto_cons_other (c := Cond.named nm i) _ rfl, szL_cons]
        have h₂ := ih rest (by omega)
        omega

theorem szL_eq_map_sum : ∀ (l : List Cond), szL l = (l.map szC).sum := by
  intro l
  induction l with
  | nil => rfl
  | cons c rest ih => simp [szL_cons, ih]

theorem szL_canonS_le (l : List Cond) : szL (canonS Cond.cmp l) ≤ szL l := by
  rw [szL_eq_map_sum, szL_eq_map_sum]
  exact sum_canonS szC l

theorem szL_filter_le (p : Cond → Bool) : ∀ (l : List Cond), szL (l.filter p) ≤ szL l := by
  intro l
  induction l with
  | nil => simp [szL]
  | cons c rest ih =>
    by_cases hp : p c
    · rw [List.filter_cons_of_pos hp, szL_cons, szL_cons]
      omega
    · rw [List.filter_cons_of_neg hp, szL_cons]
      have := one_le_szC c
      omega

/-- The `named_query_dict[name]` of the source: the set of `NamedQuery`
inputs sharing the given name. -/
def group (n : String) (flat : List Cond) : List Cond :=
  canonS Cond.cmp (flat.filter fun c => nameOf? c == some n)

/-- The keys of `named_query_dict`: the names of the `NamedQuery` inputs. -/
def namesOf (flat : List Cond) : List String :=
  canonS strCmp (flat.filterMap nameOf?)

/-- The `[query.other_condition for query in queries]` of the source. -/
def innersOf (g : List Cond) : List (Option Cond) := g.map innerOf

/-- The merged `NamedQuery` members: one `NamedQuery(name, cls(*inners))`
per distinct name, with `rec` standing for the recursive junction
construction `cls(...)`. -/
def mergeNamesW (rec : List (Option Cond) → Cond) : List String → List Cond → List Cond
  | [], _ => []
  | n :: ns, flat => .named n (some (rec (innersOf (group n flat)))) :: mergeNamesW rec ns flat

theorem szO_innerOf_lt (c : Cond) : szO (innerOf c) < szC c := by
  cases c with
  | named nm i => cases i <;> simp [innerOf, szO, szC] <;> omega
  | value op l => simp [innerOf, szO, szC]
  | stringValue op l => simp [innerOf, szO, szC]
  | junction k ms => simp [innerOf, szO, szC]

theorem szLO_innersOf_le : ∀ (g : List Cond), szLO (innersOf g) ≤ szL g := by
  intro g
  induction g with
  | nil => simp [innersOf, szLO, szL]
  | cons c g' ih =>
    have h1 := szO_innerOf_lt c
    have h2 : szLO (innersOf (c :: g')) = szO (innerOf c) + szLO (innersOf g') := rfl
    rw [h2, szL_cons]
    omega

theorem szLO_innersOf_lt : ∀ (g : List Cond), g ≠ [] → szLO (innersOf g) < szL g := by
  intro g hg
  cases g with
  | nil => exact absurd rfl hg
  | cons c g' =>
    have h1 := szO_innerOf_lt c
    have h2 : szLO (innersOf (c :: g')) = szO (innerOf c) + szLO (innersOf g') := rfl
    have h3 := szLO_innersOf_le g'
    rw [h2, szL_cons]
    omega

theorem szL_group_le (n : String) (flat : List Cond) : szL (group n flat) ≤ szL flat :=
  le_trans (szL_canonS_le _) (szL_filter_le _ flat)

theorem group_ne_nil_of_mem_names {n : String} {flat : List Cond}
    (hn : n ∈ namesOf flat) : group n flat ≠ [] := by
  have hn' : n ∈ flat.filterMap nameOf? := (mem_canonS strCmp_laws).mp hn
  obtain ⟨c, hc, hcn⟩ := List.mem_filterMap.mp hn'
  have hcf : c ∈ flat.filter (fun c => nameOf? c == some n) := by
    rw [List.mem_filter]
    exact ⟨hc, by simp [hcn]⟩
  have : c ∈ group n flat := (mem_canonS condCmpLaws).mpr hcf
  exact List.ne_nil_of_mem this

theorem szLO_group_lt {n : String} {flat : List Cond} (hn : n ∈ namesOf flat) :
    szLO (innersOf (group n flat)) < szL flat :=
  lt_of_lt_of_le (szLO_innersOf_lt _ (group_ne_nil_of_mem_names hn)) (szL_group_le n flat)

theorem szL_filterMap_id : ∀ (opts : List (Option Cond)),
    szL (opts.filterMap id) = szLO opts := by
  intro opts
  induction opts with
  | nil => rfl
  | cons o os ih =>
    cases o with
    | none => simpa [szLO, szO] using ih
    | some c => simp [szLO, szO, szL_cons, ih]

/-- Fuelled junction construction: one unfolding of `__new__` together with
`_match_conditions` of `AbstractJunction`.  The inputs are optional
conditions (`None` members are discarded by `add_conditions`); same-kind
junctions are flattened, non-named conditions are collected into the set,
named queries are grouped by name and merged recursively. -/
def mkJF : Nat → Kind → List (Option Cond) → Cond
  | 0, k, _ => .junction k []
  | f + 1, k, opts =>
    let flat := flattenInto k (opts.filterMap id)
    match canonS Cond.cmp ((flat.filter fun c => !c.isNamed) ++
        mergeNamesW (mkJF f k) (namesOf flat) flat) with
    | [x] => x
    | s => .junction k s

/-- The junction construction `And(...)` / `Or(...)`: returns the single
member itself when the normalized member set is a singleton, and a junction
holding the normalized member set otherwise. -/
def mkJunction (k : Kind) (opts : List (Option Cond)) : Cond :=
  mkJF (szLO opts + 1) k opts

/-- The normalized member set (`_match_conditions` of the source): the
deduplicated non-named conditions united with the per-name merged named
queries, as a canonically sorted list. -/
def memberSet (k : Kind) (opts : List (Option Cond)) : List Cond :=
  let flat := flattenInto k (opts.filterMap id)
  canonS Cond.cmp ((flat.filter fun c => !c.isNamed) ++
    mergeNamesW (mkJunction k) (namesOf flat) flat)

theorem mergeNamesW_congr {r₁ r₂ : List (Option Cond) → Cond} :
    ∀ (ns : List String) (flat : List Cond),
      (∀ n ∈ ns, r₁ (innersOf (group n flat)) = r₂ (innersOf (group n flat))) →
      mergeNamesW r₁ ns flat = mergeNamesW r₂ ns flat := by
  intro ns
  induction ns with
  | nil => intro flat _; rfl
  | cons n ns' ih =>
    intro flat h
    simp only [mergeNamesW]
    rw [h n (by simp), ih flat (fun m hm => h m (by simp [hm]))]

theorem mkJF_congr : ∀ (m : Nat) {f g : Nat} (k : Kind) (opts : List (Option Cond)),
    szLO opts ≤ m → szLO opts < f → szLO opts < g → mkJF f k opts = mkJF g k opts := by
  intro m
  induction m with
  | zero =>
    intro f g k opts hm hf hg
    obtain ⟨f', rfl⟩ : ∃ f', f = f' + 1 := ⟨f - 1, by omega⟩
    obtain ⟨g', rfl⟩ : ∃ g', g = g' + 1 := ⟨g - 1, by omega⟩
    simp only [mkJF]
    have hflat : szL (flattenInto k (opts.filterMap id)) = 0 := by
      have h1 := szL_flattenInto_le (k := k) (szL (opts.filterMap id)) (opts.filterMap id) le_rfl
      have h2 := szL_filterMap_id opts
      omega
    rw [mergeNamesW_congr (namesOf (flattenInto k (opts.filterMap id)))
      (flattenInto k (opts.filterMap id))]
    intro n hn
    have := szLO_group_lt hn
    omega
  | succ m ih =>
    intro f g k opts hm hf hg
    obtain ⟨f', rfl⟩ : ∃ f', f = f' + 1 := ⟨f - 1, by omega⟩
    obtain ⟨g', rfl⟩ : ∃ g', g = g' + 1 := ⟨g - 1, by omega⟩
    simp only [mkJF]
    rw [mergeNamesW_congr (namesOf (flattenInto k (opts.filterMap id)))
      (flattenInto k (opts.filterMap id))]
    intro n hn
    have hlt := szLO_group_lt hn
    have hle : szL (flattenInto k (opts.filterMap id)) ≤ szLO opts := by
      have h1 := szL_flattenInto_le (k := k) (szL (opts.filterMap id)) (opts.filterMap id) le_rfl
      have h2 := szL_filterMap_id opts
      omega
    exact ih k (innersOf (group n (flattenInto k (opts.filterMap id))))
      (by omega) (by omega) (by omega)

theorem mkJF_eq_mkJunction {f : Nat} (k : Kind) (opts : List (Option Cond))
    (hf : szLO opts < f) : mkJF f k opts = mkJunction k opts :=
  mkJF_congr (szLO opts) k opts le_rfl hf (by omega)

/-- Unfolding of the construction through the normalized member set:
`__new__` returns the sole member of a singleton set and otherwise an
actual junction carrying the set. -/
theorem mkJunction_eq (k : Kind) (opts : List (Option Cond)) :
    mkJunction k opts = match memberSet k opts with
      | [x] => x
      | s => .junction k s := by
  unfold mkJunction memberSet
  simp only [mkJF]
  rw [mergeNamesW_congr (namesOf (flattenInto k (opts.filterMap id)))
    (flattenInto k (opts.filterMap id))]
  intro n hn
  have hlt := szLO_group_lt hn
  have hle : szL (flattenInto k (opts.filterMap id)) ≤ szLO opts := by
    have h1 := szL_flattenInto_le (k := k) (szL (opts.filterMap id)) (opts.filterMap id) le_rfl
    have h2 := szL_filterMap_id opts
    omega
  exact mkJF_eq_mkJunction k _ (by omega)

/-- One layer of the table-footprint computation.  The junction case is the
`tables` property of `AbstractJunction`: the union of the tables of every
member that is not a `NamedQuery`.  The leaf and named cases are modelled
from the spec: leaves require their own value table, a `NamedQuery` compiles
against the `object` table and keeps its inner requirements scoped to its
own subquery. -/
def tablesW (rec : Cond → Finset Table) : Cond → Finset Table
  | .value _ _ => {Table.value}
  | .stringValue _ _ => {Table.string_value}
  | .named _ _ => {Table.object}
  | .junction _ ms => ((ms.filter fun c => !c.isNamed).map rec).foldr (· ∪ ·) ∅

/-- Fuelled table-footprint computation. -/
def tablesF : Nat → Cond → Finset Table
  | 0, _ => ∅
  | f + 1, c => tablesW (tablesF f) c

theorem tablesW_congr (c : Cond) {r₁ r₂ : Cond → Finset Table}
    (hr : ∀ x, szC x < szC c → r₁ x = r₂ x) : tablesW r₁ c = tablesW r₂ c := by
  cases c with
  | value op l => rfl
  | stringValue op l => rfl
  | named nm i => rfl
  | junction k ms =>
    simp only [tablesW]
    congr 1
    refine List.map_congr_left ?_
    intro x hx
    refine hr x ?_
    have hx' : x ∈ ms := (List.mem_filter.mp hx).1
    have := szC_le_szL_of_mem hx'
    simp [szC]
    omega

theorem tablesF_congr : ∀ (n : Nat) {f g : Nat} (c : Cond),
    szC c ≤ n → szC c ≤ f → szC c ≤ g → tablesF f c = tablesF g c := by
  intro n
  induction n with
  | zero =>
    intro f g c hn _ _
    have := one_le_szC c
    omega
  | succ n ih =>
    intro f g c hn hf hg
    obtain ⟨f', rfl⟩ : ∃ f', f = f' + 1 := ⟨f - 1, by have := one_le_szC c; omega⟩
    obtain ⟨g', rfl⟩ : ∃ g', g = g' + 1 := ⟨g - 1, by have := one_le_szC c; omega⟩
    simp only [tablesF]
    apply tablesW_congr
    intro x hx
    exact ih x (by omega) (by omega) (by omega)

/-- The `tables` property: which physical tables a condition requires. -/
def Cond.tables (c : Cond) : Finset Table := tablesF (szC c) c

theorem tables_unfold (c : Cond) : Cond.tables c = tablesW Cond.tables c := by
  unfold Cond.tables
  obtain ⟨m, hm⟩ : ∃ m, szC c = m + 1 := ⟨szC c - 1, by have := one_le_szC c; omega⟩
  rw [hm]
  simp only [tablesF]
  apply tablesW_congr
  intro x hx
  exact tablesF_congr (szC x) x le_rfl (by omega) le_rfl

/-- Modelled from the spec: the table requirements of an optional inner
condition (an absent inner requires nothing). -/
def tablesOpt : Option Cond → Finset Table
  | none => ∅
  | some c => c.tables

/-- Modelled from the spec: the `", <table> AS <alias>"` join list of a
rendered query (`o` is always present for `object`; `value`/`string_value`
join in with their fixed aliases when required). -/
def joinTables (ts : Finset Table) : String :=
  (if Table.value ∈ ts then ", value AS v" else "") ++
    (if Table.string_value ∈ ts then ", string_value AS sv" else "")

/-- Modelled from the spec: the name test `o.name = '<name>'` of a
`NamedQuery`. -/
def nameClause (n : String) : String := "o.name = '" ++ n ++ "'"

/-- Modelled from the spec: the WHERE-clause fragments contributed by the
inner condition of a `NamedQuery`.  An `And` inner contributes one fragment
per member (they merge into the surrounding conjunction), an `Or` inner
contributes a single unparenthesized disjunction, any other condition
contributes its own clause. -/
def wherePartsW (render : Cond → String) : Option Cond → List String
  | none => []
  | some (.junction .and ms) => (canonS Cond.cmp ms).map render
  | some (.junction .or ms) =>
    [String.intercalate " OR " ((canonS Cond.cmp ms).map render)]
  | some c => [render c]

/-- Modelled from the spec: the full `SELECT` of a `NamedQuery` (`query` in
the source), with `extras` for additional correlated clauses merged into the
WHERE conjunction by an enclosing junction.  All clauses of the conjunction
are rendered in canonical (string) order. -/
def namedQueryW (render : Cond → String) (n : String) (i : Option Cond)
    (extras : List String) : String :=
  "SELECT parent_id FROM object AS o" ++ joinTables (tablesOpt i) ++ " WHERE " ++
    String.intercalate " AND " (canonS strCmp (nameClause n :: (wherePartsW render i ++ extras)))

/-- One layer of condition rendering.  The junction case is `__str__` of
`AbstractJunction`: the members, sorted, joined by the kind's SQL word and
wrapped in parentheses.  The leaf cases are modelled from the spec
(`<alias>.value <op> <literal>`); a nested `NamedQuery` is modelled from the
spec as the correlated existence test `id IN (<subquery>)`. -/
def strW (render : Cond → String) : Cond → String
  | .value op l => "v.value " ++ op ++ " " ++ toString l
  | .stringValue op l => "sv.value " ++ op ++ " '" ++ l ++ "'"
  | .named n i => "id IN (" ++ namedQueryW render n i [] ++ ")"
  | .junction k ms =>
    "(" ++ String.intercalate (" " ++ k.join ++ " ") ((canonS Cond.cmp ms).map render) ++ ")"

/-- Fuelled condition rendering. -/
def strF : Nat → Cond → String
  | 0, _ => ""
  | f + 1, c => strW (strF f) c

theorem mem_canonS_szC {x : Cond} {ms : List Cond} (hx : x ∈ canonS Cond.cmp ms) :
    szC x ≤ szL ms :=
  szC_le_szL_of_mem ((mem_canonS condCmpLaws).mp hx)

theorem strW_congr (c : Cond) {r₁ r₂ : Cond → String}
    (hr : ∀ x, szC x < szC c → r₁ x = r₂ x) : strW r₁ c = strW r₂ c := by
  cases c with
  | value op l => rfl
  | stringValue op l => rfl
  | junction k ms =>
    simp only [strW]
    have hmap : List.map r₁ (canonS Cond.cmp ms) = List.map r₂ (canonS Cond.cmp ms) := by
      refine List.map_congr_left ?_
      intro x hx
      refine hr x ?_
      have := mem_canonS_szC hx
      simp [szC]
      omega
    rw [hmap]
  | named nm i =>
    simp only [strW, namedQueryW]
    cases i with
    | none => rfl
    | some ci =>
      have hci : szC ci < szC (Cond.named nm (some ci)) := by simp [szC]
      have hparts : wherePartsW r₁ (some ci) = wherePartsW r₂ (some ci) := by
        cases ci with
        | junction k ms =>
          have hms : szL ms < szC (Cond.junction k ms) := by simp [szC]
          have hmap : List.map r₁ (canonS Cond.cmp ms) = List.map r₂ (canonS Cond.cmp ms) := by
            refine List.map_congr_left ?_
            intro x hx
            have := mem_canonS_szC hx
            exact hr x (by omega)
          cases k with
          | and => simp only [wherePartsW]; rw [hmap]
          | or => simp only [wherePartsW]; rw [hmap]
        | value op l => simp only [wherePartsW]; rw [hr _ hci]
        | stringValue op l => simp only [wherePartsW]; rw [hr _ hci]
        | named nm' i' => simp only [wherePartsW]; rw [hr _ hci]
      rw [hparts]

theorem strF_congr : ∀ (n : Nat) {f g : Nat} (c : Cond),
    szC c ≤ n → szC c ≤ f → szC c ≤ g → strF f c = strF g c := by
  intro n
  induction n with
  | zero =>
    intro f g c hn _ _
    have := one_le_szC c
    omega
  | succ n ih =>
    intro f g c hn hf hg
    obtain ⟨f', rfl⟩ : ∃ f', f = f' + 1 := ⟨f - 1, by have := one_le_szC c; omega⟩
    obtain ⟨g', rfl⟩ : ∃ g', g = g' + 1 := ⟨g - 1, by have := one_le_szC c; omega⟩
    simp only [strF]
    apply strW_congr
    intro x hx
    exact ih x (by omega) (by omega) (by omega)

/-- Rendering of a condition to query text (`__str__`). -/
def Cond.str (c : Cond) : String := strF (szC c) c

theorem str_unfold (c : Cond) : Cond.str c = strW Cond.str c := by
  unfold Cond.str
  obtain ⟨m, hm⟩ : ∃ m, szC c = m + 1 := ⟨szC c - 1, by have := one_le_szC c; omega⟩
  rw [hm]
  simp only [strF]
  apply strW_congr
  intro x hx
  exact strF_congr (szC x) x le_rfl (by omega) le_rfl

/-- The first `NamedQuery` of a member list together with the remaining
members, if any. -/
def firstNamed : List Cond → Option (String × Option Cond × List Cond)
  | [] => none
  | .named n i :: rest => some (n, i, rest)
  | c :: rest => (firstNamed rest).map (fun x => (x.1, x.2.1, c :: x.2.2))

/-- Modelled from the spec: the top-level query text of a condition tree.
A top-level `NamedQuery` renders as its own `SELECT`; a junction of named
queries renders the canonically first named member as the outer `SELECT`
with the remaining members as correlated clauses conjoined into its WHERE;
any other condition renders as its clause text. -/
def Cond.query : Cond → String
  | .named n i => namedQueryW Cond.str n i []
  | .junction k ms =>
    match firstNamed (canonS Cond.cmp ms) with
    | some (n, i, rest) => namedQueryW Cond.str n i (rest.map Cond.str)
    | none => Cond.str (.junction k ms)
  | c => Cond.str c

namespace DSL

/-- The `Q` entry point: constructs a `NamedQuery` with an optional inner
condition. -/
def Q (n : String) (i : Option Cond) : Cond := .named n i

/-- The `V` entry point: a numeric value condition. -/
def V (op : String) (lit : Int) : Cond := .value op lit

/-- The `SV` entry point: a string value condition. -/
def SV (op : String) (lit : String) : Cond := .stringValue op lit

/-- The `And(*conditions)` constructor. -/
def And (conditions : List (Option Cond)) : Cond := mkJunction .and conditions

/-- The `Or(*conditions)` constructor. -/
def Or (conditions : List (Option Cond)) : Cond := mkJunction .or conditions

end DSL

/-- The flattened input list feeding `_match_conditions`. -/
def flatOf (k : Kind) (opts : List (Option Cond)) : List Cond :=
  flattenInto k (opts.filterMap id)

theorem memberSet_def (k : Kind) (opts : List (Option Cond)) :
    memberSet k opts = canonS Cond.cmp (((flatOf k opts).filter fun c => !c.isNamed) ++
      mergeNamesW (mkJunction k) (namesOf (flatOf k opts)) (flatOf k opts)) := rfl

theorem mem_mergeNamesW {rec : List (Option Cond) → Cond} {x : Cond} :
    ∀ {ns : List String} {flat : List Cond},
      (x ∈ mergeNamesW rec ns flat ↔
        ∃ n ∈ ns, x = Cond.named n (some (rec (innersOf (group n flat))))) := by
  intro ns
  induction ns with
  | nil => intro flat; simp [mergeNamesW]
  | cons n ns' ih =>
    intro flat
    simp only [mergeNamesW, List.mem_cons, ih, List.mem_cons]
    constructor
    · rintro (rfl | ⟨m, hm, rfl⟩)
      · exact ⟨n, Or.inl rfl, rfl⟩
      · exact ⟨m, Or.inr hm, rfl⟩
    · rintro ⟨m, hm | hm, rfl⟩
      · rw [hm]
        exact Or.inl rfl
      · exact Or.inr ⟨m, hm, rfl⟩

theorem mem_memberSet {k : Kind} {opts : List (Option Cond)} {x : Cond} :
    x ∈ memberSet k opts ↔
      ((x ∈ flatOf k opts ∧ x.isNamed = false) ∨
        ∃ n ∈ namesOf (flatOf k opts),
          x = Cond.named n (some (mkJunction k (innersOf (group n (flatOf k opts)))))) := by
  rw [memberSet_def, mem_canonS condCmpLaws, List.mem_append, List.mem_filter,
    mem_mergeNamesW]
  simp [Bool.not_eq_true']

theorem memberSet_sorted (k : Kind) (opts : List (Option Cond)) :
    (memberSet k opts).Pairwise (fun a b => Cond.cmp a b = .lt) := by
  rw [memberSet_def]
  exact sorted_canonS condCmpLaws _

theorem memberSet_nodup (k : Kind) (opts : List (Option Cond)) :
    (memberSet k opts).Nodup :=
  nodup_of_sorted condCmpLaws (memberSet_sorted k opts)

theorem memberSet_not_same {k : Kind} {opts : List (Option Cond)} {x : Cond}
    (hx : x ∈ memberSet k opts) : isJunctionOf k x = false := by
  rcases mem_memberSet.mp hx with ⟨hmem, _⟩ | ⟨n, _, rfl⟩
  · exact mem_flattenInto_not_same hmem
  · rfl

theorem mergeNamesW_flat_congr {rec : List (Option Cond) → Cond} :
    ∀ (ns : List String) {f₁ f₂ : List Cond},
      (∀ n ∈ ns, group n f₁ = group n f₂) →
      mergeNamesW rec ns f₁ = mergeNamesW rec ns f₂ := by
  intro ns
  induction ns with
  | nil => intro f₁ f₂ _; rfl
  | cons n ns' ih =>
    intro f₁ f₂ h
    simp only [mergeNamesW]
    rw [h n (by simp), ih (fun m hm => h m (by simp [hm]))]

/-- `_match_conditions` is determined by the membership of the flattened
input: the set semantics of the normalization. -/
theorem memberSet_ext {k : Kind} {o₁ o₂ : List (Option Cond)}
    (h : ∀ x, x ∈ flatOf k o₁ ↔ x ∈ flatOf k o₂) :
    memberSet k o₁ = memberSet k o₂ := by
  have hnames : namesOf (flatOf k o₁) = namesOf (flatOf k o₂) := by
    refine canonS_congr strCmp_laws ?_
    intro n
    simp only [List.mem_filterMap]
    constructor
    · rintro ⟨c, hc, hcn⟩
      exact ⟨c, (h c).mp hc, hcn⟩
    · rintro ⟨c, hc, hcn⟩
      exact ⟨c, (h c).mpr hc, hcn⟩
  have hgroup : ∀ n, group n (flatOf k o₁) = group n (flatOf k o₂) := by
    intro n
    refine canonS_congr condCmpLaws ?_
    intro x
    simp only [List.mem_filter]
    rw [h x]
  have hmerge : mergeNamesW (mkJunction k) (namesOf (flatOf k o₁)) (flatOf k o₁)
      = mergeNamesW (mkJunction k) (namesOf (flatOf k o₂)) (flatOf k o₂) := by
    rw [hnames]
    exact mergeNamesW_flat_congr _ (fun n _ => hgroup n)
  rw [memberSet_def, memberSet_def, hmerge]
  refine canonS_congr condCmpLaws ?_
  intro x
  simp only [List.mem_append, List.mem_filter]
  rw [h x]

/-- The junction construction is determined by the membership of the
flattened input. -/
theorem mkJunction_ext {k : Kind} {o₁ o₂ : List (Option Cond)}
    (h : ∀ x, x ∈ flatOf k o₁ ↔ x ∈ flatOf k o₂) :
    mkJunction k o₁ = mkJunction k o₂ := by
  rw [mkJunction_eq, mkJunction_eq, memberSet_ext h]

theorem flatOf_nil (k : Kind) : flatOf k [] = [] := rfl

theorem flatOf_cons_none (k : Kind) (opts : List (Option Cond)) :
    flatOf k (none :: opts) = flatOf k opts := by
  simp [flatOf]

theorem flatOf_cons_other {k : Kind} {c : Cond} (opts : List (Option Cond))
    (hc : isJunctionOf k c = false) :
    flatOf k (some c :: opts) = c :: flatOf k opts := by
  unfold flatOf
  rw [List.filterMap_cons_some]
  · exact flattenInto_cons_other _ hc
  · rfl

theorem flatOf_cons_same (k : Kind) (ms : List Cond) (opts : List (Option Cond)) :
    flatOf k (some (.junction k ms) :: opts) = flattenInto k ms ++ flatOf k opts := by
  unfold flatOf
  rw [List.filterMap_cons_some]
  · exact flattenInto_cons_same k ms _
  · rfl

theorem flatOf_append (k : Kind) (o₁ o₂ : List (Option Cond)) :
    flatOf k (o₁ ++ o₂) = flatOf k o₁ ++ flatOf k o₂ := by
  unfold flatOf
  rw [List.filterMap_append, flattenInto_append]

theorem mem_flatOf {k : Kind} {y : Cond} : ∀ {opts : List (Option Cond)},
    y ∈ flatOf k opts ↔ ∃ o ∈ opts, y ∈ flatOf k [o] := by
  intro opts
  induction opts with
  | nil => simp [flatOf_nil]
  | cons o os ih =>
    have h : flatOf k (o :: os) = flatOf k [o] ++ flatOf k os := by
      have := flatOf_append k [o] os
      simpa using this
    rw [h]
    simp only [List.mem_append, ih, List.mem_cons]
    constructor
    · rintro (hy | ⟨o', ho', hy⟩)
      · exact ⟨o, Or.inl rfl, hy⟩
      · exact ⟨o', Or.inr ho', hy⟩
    · rintro ⟨o', ho' | ho', hy⟩
      · rw [ho'] at hy
        exact Or.inl hy
      · exact Or.inr ⟨o', ho', hy⟩

theorem mem_flatOf_innersOf {k : Kind} {y : Cond} {G : List Cond} :
    y ∈ flatOf k (innersOf G) ↔ ∃ q ∈ G, y ∈ flatOf k [innerOf q] := by
  rw [mem_flatOf]
  unfold innersOf
  simp only [List.mem_map]
  constructor
  · rintro ⟨o, ⟨q, hq, rfl⟩, hy⟩
    exact ⟨q, hq, hy⟩
  · rintro ⟨q, hq, hy⟩
    exact ⟨innerOf q, ⟨q, hq, rfl⟩, hy⟩

theorem mem_group {n : String} {flat : List Cond} {q : Cond} :
    q ∈ group n flat ↔ q ∈ flat ∧ nameOf? q = some n := by
  unfold group
  rw [mem_canonS condCmpLaws, List.mem_filter]
  simp

theorem mem_namesOf {n : String} {flat : List Cond} :
    n ∈ namesOf flat ↔ ∃ c ∈ flat, nameOf? c = some n := by
  unfold namesOf
  rw [mem_canonS strCmp_laws, List.mem_filterMap]

theorem isNamed_of_nameOf {c : Cond} {n : String} (h : nameOf? c = some n) :
    c.isNamed = true := by
  cases c <;> simp [nameOf?, Cond.isNamed] at h ⊢

theorem mem_memberSet_named {k : Kind} {opts : List (Option Cond)} {n : String}
    {j : Option Cond} :
    Cond.named n j ∈ memberSet k opts ↔
      n ∈ namesOf (flatOf k opts) ∧
        j = some (mkJunction k (innersOf (group n (flatOf k opts)))) := by
  rw [mem_memberSet]
  constructor
  · rintro (⟨_, hnamed⟩ | ⟨m, hm, heq⟩)
    · simp [Cond.isNamed] at hnamed
    · rw [Cond.named.injEq] at heq
      obtain ⟨rfl, rfl⟩ := heq
      exact ⟨hm, rfl⟩
  · rintro ⟨hn, rfl⟩
    exact Or.inr ⟨n, hn, rfl⟩

theorem szLO_append : ∀ (o₁ o₂ : List (Option Cond)), szLO (o₁ ++ o₂) = szLO o₁ + szLO o₂ := by
  intro o₁
  induction o₁ with
  | nil => intro o₂; simp [szLO]
  | cons o os ih =>
    intro o₂
    have h : szLO (o :: (os ++ o₂)) = szO o + szLO (os ++ o₂) := rfl
    simp only [List.cons_append, h, ih]
    have h2 : szLO (o :: os) = szO o + szLO os := rfl
    omega

theorem szL_flatOf_le (k : Kind) (opts : List (Option Cond)) :
    szL (flatOf k opts) ≤ szLO opts := by
  unfold flatOf
  have h1 := szL_flattenInto_le (k := k) (szL (opts.filterMap id)) (opts.filterMap id) le_rfl
  have h2 := szL_filterMap_id opts
  omega

/-- The flattened input of the reprocessed construction
`cls(cls(*os), *rest)` is the member set of the inner construction followed
by the flattened remaining inputs, whatever the inner construction
collapsed to. -/
theorem flatOf_reprocess (k : Kind) (os rest : List (Option Cond)) :
    flatOf k (some (mkJunction k os) :: rest) = memberSet k os ++ flatOf k rest := by
  rw [mkJunction_eq]
  rcases hms : memberSet k os with _ | ⟨x, _ | ⟨y, t⟩⟩
  · rw [show (match ([] : List Cond) with | [x] => x | s => Cond.junction k s)
        = Cond.junction k [] from rfl]
    rw [flatOf_cons_same]
    rw [show flattenInto k [] = [] from rfl]
  · rw [show (match [x] with | [x] => x | s => Cond.junction k s) = x from rfl]
    have hx : x ∈ memberSet k os := by rw [hms]; simp
    have hnot := memberSet_not_same hx
    rw [flatOf_cons_other _ hnot]
    simp
  · rw [show (match x :: y :: t with | [x] => x | s => Cond.junction k s)
        = Cond.junction k (x :: y :: t) from rfl]
    rw [flatOf_cons_same]
    have hid : flattenInto k (x :: y :: t) = x :: y :: t := by
      refine flattenInto_id ?_
      intro c hc
      have : c ∈ memberSet k os := by rw [hms]; exact hc
      exact memberSet_not_same this
    rw [hid]

theorem mem_memberSet_other {k : Kind} {opts : List (Option Cond)} {y : Cond}
    (hy : y.isNamed = false) : y ∈ memberSet k opts ↔ y ∈ flatOf k opts := by
  rw [mem_memberSet]
  constructor
  · rintro (⟨h1, _⟩ | ⟨n, hn, rfl⟩)
    · exact h1
    · simp [Cond.isNamed] at hy
  · intro h1
    exact Or.inl ⟨h1, hy⟩

/-- Reprocessing a constructed junction among further inputs yields the same
construction as processing the original inputs alongside them: the
closure/associativity law of `_match_conditions`. -/
theorem mkJunction_reprocess_aux : ∀ (m : Nat) (k : Kind) (os rest : List (Option Cond)),
    szLO os + szLO rest ≤ m →
    mkJunction k (some (mkJunction k os) :: rest) = mkJunction k (os ++ rest) := by
  intro m
  induction m using Nat.strong_induction_on with
  | _ m ih =>
    intro k os rest hm
    have hflatL : flatOf k (some (mkJunction k os) :: rest)
        = memberSet k os ++ flatOf k rest := flatOf_reprocess k os rest
    have hflatR : flatOf k (os ++ rest) = flatOf k os ++ flatOf k rest :=
      flatOf_append k os rest
    -- membership of named elements of the inner member set
    have hgroupL : ∀ (n : String) (q : Cond),
        q ∈ group n (memberSet k os ++ flatOf k rest) ↔
          (n ∈ namesOf (flatOf k os) ∧
            q = Cond.named n (some (mkJunction k (innersOf (group n (flatOf k os)))))) ∨
          q ∈ group n (flatOf k rest) := by
      intro n q
      rw [mem_group, mem_group]
      simp only [List.mem_append]
      constructor
      · rintro ⟨hq | hq, hqn⟩
        · left
          obtain ⟨n', j, rfl⟩ : ∃ n' j, q = Cond.named n' j := by
            cases q <;> simp [nameOf?] at hqn ⊢
          have hn' : n' = n := by simpa [nameOf?] using hqn
          subst hn'
          obtain ⟨hn, rfl⟩ := mem_memberSet_named.mp hq
          exact ⟨hn, rfl⟩
        · exact Or.inr ⟨hq, hqn⟩
      · rintro (⟨hn, rfl⟩ | hq)
        · refine ⟨Or.inl (mem_memberSet_named.mpr ⟨hn, rfl⟩), ?_⟩
          simp [nameOf?]
        · exact ⟨Or.inr hq.1, hq.2⟩
    -- the names occurring in the two flattened inputs agree
    have hnames : namesOf (memberSet k os ++ flatOf k rest)
        = namesOf (flatOf k os ++ flatOf k rest) := by
      refine canonS_congr strCmp_laws ?_
      intro n
      simp only [List.filterMap_append, List.mem_append, List.mem_filterMap]
      constructor
      · rintro (⟨c, hc, hcn⟩ | h)
        · left
          obtain ⟨n', j, rfl⟩ : ∃ n' j, c = Cond.named n' j := by
            cases c <;> simp [nameOf?] at hcn ⊢
          have hn' : n' = n := by simpa [nameOf?] using hcn
          subst hn'
          obtain ⟨hn, _⟩ := mem_memberSet_named.mp hc
          obtain ⟨c', hc', hcn'⟩ := mem_namesOf.mp hn
          exact ⟨c', hc', hcn'⟩
        · exact Or.inr h
      · rintro (⟨c, hc, hcn⟩ | h)
        · left
          have hn : n ∈ namesOf (flatOf k os) := mem_namesOf.mpr ⟨c, hc, hcn⟩
          refine ⟨Cond.named n (some (mkJunction k (innersOf (group n (flatOf k os))))),
            mem_memberSet_named.mpr ⟨hn, rfl⟩, ?_⟩
          simp [nameOf?]
        · exact Or.inr h
    -- per-name equality of the merged named queries
    have hmerged : ∀ n, n ∈ namesOf (flatOf k os ++ flatOf k rest) →
        mkJunction k (innersOf (group n (memberSet k os ++ flatOf k rest)))
          = mkJunction k (innersOf (group n (flatOf k os ++ flatOf k rest))) := by
      intro n _
      by_cases hnX : n ∈ namesOf (flatOf k os)
      · have step1 : mkJunction k (innersOf (group n (memberSet k os ++ flatOf k rest)))
            = mkJunction k (some (mkJunction k (innersOf (group n (flatOf k os)))) ::
                innersOf (group n (flatOf k rest))) := by
          apply mkJunction_ext
          intro y
          rw [mem_flatOf_innersOf]
          have hcons : flatOf k (some (mkJunction k (innersOf (group n (flatOf k os)))) ::
              innersOf (group n (flatOf k rest)))
              = flatOf k [some (mkJunction k (innersOf (group n (flatOf k os))))] ++
                flatOf k (innersOf (group n (flatOf k rest))) := by
            simpa using flatOf_append k
              [some (mkJunction k (innersOf (group n (flatOf k os))))]
              (innersOf (group n (flatOf k rest)))
          rw [hcons, List.mem_append, mem_flatOf_innersOf]
          constructor
          · rintro ⟨q, hq, hy⟩
            rcases (hgroupL n q).mp hq with ⟨_, rfl⟩ | hq'
            · left
              simpa [innerOf] using hy
            · right
              exact ⟨q, hq', hy⟩
          · rintro (hy | ⟨q, hq, hy⟩)
            · refine ⟨Cond.named n (some (mkJunction k (innersOf (group n (flatOf k os))))),
                (hgroupL n _).mpr (Or.inl ⟨hnX, rfl⟩), ?_⟩
              simpa [innerOf] using hy
            · exact ⟨q, (hgroupL n q).mpr (Or.inr hq), hy⟩
        have step2 : mkJunction k (some (mkJunction k (innersOf (group n (flatOf k os)))) ::
              innersOf (group n (flatOf k rest)))
            = mkJunction k (innersOf (group n (flatOf k os)) ++
                innersOf (group n (flatOf k rest))) := by
          refine ih (szLO (innersOf (group n (flatOf k os))) +
            szLO (innersOf (group n (flatOf k rest)))) ?_ k _ _ ?_
          · have h1 : szLO (innersOf (group n (flatOf k os))) < szL (flatOf k os) :=
              szLO_group_lt hnX
            have h2 : szLO (innersOf (group n (flatOf k rest)))
                ≤ szL (group n (flatOf k rest)) := szLO_innersOf_le _
            have h3 : szL (group n (flatOf k rest)) ≤ szL (flatOf k rest) :=
              szL_group_le n (flatOf k rest)
            have h4 := szL_flatOf_le k os
            have h5 := szL_flatOf_le k rest
            omega
          · exact le_rfl
        have step3 : mkJunction k (innersOf (group n (flatOf k os)) ++
              innersOf (group n (flatOf k rest)))
            = mkJunction k (innersOf (group n (flatOf k os ++ flatOf k rest))) := by
          apply mkJunction_ext
          intro y
          rw [flatOf_append, List.mem_append, mem_flatOf_innersOf, mem_flatOf_innersOf,
            mem_flatOf_innersOf]
          constructor
          · rintro (⟨q, hq, hy⟩ | ⟨q, hq, hy⟩)
            · exact ⟨q, mem_group.mpr
                ⟨List.mem_append.mpr (Or.inl (mem_group.mp hq).1), (mem_group.mp hq).2⟩, hy⟩
            · exact ⟨q, mem_group.mpr
                ⟨List.mem_append.mpr (Or.inr (mem_group.mp hq).1), (mem_group.mp hq).2⟩, hy⟩
          · rintro ⟨q, hq, hy⟩
            rcases List.mem_append.mp (mem_group.mp hq).1 with h | h
            · exact Or.inl ⟨q, mem_group.mpr ⟨h, (mem_group.mp hq).2⟩, hy⟩
            · exact Or.inr ⟨q, mem_group.mpr ⟨h, (mem_group.mp hq).2⟩, hy⟩
        rw [step1, step2, step3]
      · have hgroups : group n (memberSet k os ++ flatOf k rest)
            = group n (flatOf k os ++ flatOf k rest) := by
          unfold group
          refine canonS_congr condCmpLaws ?_
          intro q
          simp only [List.mem_filter, List.mem_append, beq_iff_eq]
          constructor
          · rintro ⟨hq | hq, hqn⟩
            · exfalso
              obtain ⟨n', j, rfl⟩ : ∃ n' j, q = Cond.named n' j := by
                cases q <;> simp [nameOf?] at hqn ⊢
              have hn' : n' = n := by simpa [nameOf?] using hqn
              subst hn'
              exact hnX (mem_memberSet_named.mp hq).1
            · exact ⟨Or.inr hq, hqn⟩
          · rintro ⟨hq | hq, hqn⟩
            · exact absurd (mem_namesOf.mpr ⟨q, hq, hqn⟩) hnX
            · exact ⟨Or.inr hq, hqn⟩
        rw [hgroups]
    -- the normalized member sets coincide
    have hms : memberSet k (some (mkJunction k os) :: rest) = memberSet k (os ++ rest) := by
      refine sorted_mem_eq condCmpLaws (memberSet_sorted _ _) (memberSet_sorted _ _) ?_
      intro y
      rw [mem_memberSet, mem_memberSet, hflatL, hflatR]
      constructor
      · rintro (⟨hy, hyn⟩ | ⟨n, hn, rfl⟩)
        · left
          refine ⟨?_, hyn⟩
          rcases List.mem_append.mp hy with h | h
          · exact List.mem_append.mpr (Or.inl ((mem_memberSet_other hyn).mp h))
          · exact List.mem_append.mpr (Or.inr h)
        · right
          have hn' : n ∈ namesOf (flatOf k os ++ flatOf k rest) := hnames ▸ hn
          exact ⟨n, hn', congrArg (fun c => Cond.named n (some c)) (hmerged n hn')⟩
      · rintro (⟨hy, hyn⟩ | ⟨n, hn, rfl⟩)
        · left
          refine ⟨?_, hyn⟩
          rcases List.mem_append.mp hy with h | h
          · exact List.mem_append.mpr (Or.inl ((mem_memberSet_other hyn).mpr h))
          · exact List.mem_append.mpr (Or.inr h)
        · right
          refine ⟨n, hnames.symm ▸ hn, ?_⟩
          exact congrArg (fun c => Cond.named n (some c)) (hmerged n hn).symm
    rw [mkJunction_eq k (some (mkJunction k os) :: rest), hms,
      ← mkJunction_eq k (os ++ rest)]

/-- Associativity/closure of the junction construction: a constructed
junction fed back into a construction of the same kind is equivalent to
passing its original inputs directly. -/
theorem mkJunction_reprocess (k : Kind) (os rest : List (Option Cond)) :
    mkJunction k (some (mkJunction k os) :: rest) = mkJunction k (os ++ rest) :=
  mkJunction_reprocess_aux (szLO os + szLO rest) k os rest le_rfl

theorem cmp_named_named (n n' : String) (i i' : Option Cond) :
    Cond.cmp (.named n i) (.named n' i') = (strCmp n n').then (cmpOptWith Cond.cmp i i') := by
  rw [cmp_unfold]
  rfl

theorem canonS_single {α : Type} (cmp : α → α → Ordering) (x : α) :
    canonS cmp [x] = [x] := rfl

theorem nameOf_eq_none {c : Cond} (hc : c.isNamed = false) : nameOf? c = none := by
  cases c <;> simp [Cond.isNamed, nameOf?] at hc ⊢

theorem memberSet_nil (k : Kind) : memberSet k [] = [] := rfl

theorem mkJunction_nil (k : Kind) : mkJunction k [] = .junction k [] := by
  rw [mkJunction_eq, memberSet_nil]

theorem mkJunction_cons_none (k : Kind) (opts : List (Option Cond)) :
    mkJunction k (none :: opts) = mkJunction k opts := by
  unfold mkJunction
  have h : szLO (none :: opts) = szLO opts := by simp [szLO, szO]
  rw [h]
  simp only [mkJF]
  have h2 : List.filterMap id (none :: opts) = List.filterMap id opts := by simp
  rw [h2]

theorem memberSet_single_other {k : Kind} {c : Cond} (hnamed : c.isNamed = false)
    (hjunc : isJunctionOf k c = false) : memberSet k [some c] = [c] := by
  have hflat : flatOf k [some c] = [c] := by
    rw [flatOf_cons_other _ hjunc, flatOf_nil]
  rw [memberSet_def, hflat]
  have hfil : List.filter (fun c => !c.isNamed) [c] = [c] := by
    simp [List.filter, hnamed]
  have hnm : namesOf [c] = [] := by
    unfold namesOf
    simp [List.filterMap, nameOf_eq_none hnamed, canonS]
  rw [hfil, hnm]
  rfl

theorem mkJunction_single_other {k : Kind} {c : Cond} (hnamed : c.isNamed = false)
    (hjunc : isJunctionOf k c = false) : mkJunction k [some c] = c := by
  rw [mkJunction_eq, memberSet_single_other hnamed hjunc]

/-- Two members of a list with duplicate-free extracted names and the same
extracted name are equal. -/
theorem filterMap_nodup_inj {f : Cond → Option String} :
    ∀ {l : List Cond}, (l.filterMap f).Nodup →
      ∀ {c c' : Cond} {n : String}, c ∈ l → c' ∈ l → f c = some n → f c' = some n →
        c = c' := by
  intro l
  induction l with
  | nil => intro _ c c' n hc; simp at hc
  | cons a t ih =>
    intro hnd c c' n hc hc' hfc hfc'
    rcases List.mem_cons.mp hc with heq | hct
    · rcases List.mem_cons.mp hc' with heq' | hc't
      · rw [heq, heq']
      · exfalso
        rw [heq] at hfc
        rw [List.filterMap_cons_some hfc] at hnd
        have hmem : n ∈ t.filterMap f := List.mem_filterMap.mpr ⟨c', hc't, hfc'⟩
        exact (List.nodup_cons.mp hnd).1 hmem
    · rcases List.mem_cons.mp hc' with heq' | hc't
      · exfalso
        rw [heq'] at hfc'
        rw [List.filterMap_cons_some hfc'] at hnd
        have hmem : n ∈ t.filterMap f := List.mem_filterMap.mpr ⟨c, hct, hfc⟩
        exact (List.nodup_cons.mp hnd).1 hmem
      · rcases hfa : f a with _ | m
        · rw [List.filterMap_cons_none hfa] at hnd
          exact ih hnd hct hc't hfc hfc'
        · rw [List.filterMap_cons_some hfa] at hnd
          exact ih (List.nodup_cons.mp hnd).2 hct hc't hfc hfc'

/-- Strict sortedness check on a member list. -/
def sortedB : List Cond → Bool
  | [] => true
  | [_] => true
  | a :: b :: t => decide (Cond.cmp a b = .lt) && sortedB (b :: t)

theorem pairwise_of_sortedB : ∀ {l : List Cond}, sortedB l = true →
    l.Pairwise (fun a b => Cond.cmp a b = .lt) := by
  intro l
  induction l with
  | nil => intro _; simp
  | cons a t ih =>
    intro h
    cases t with
    | nil => simp
    | cons b t' =>
      simp only [sortedB, Bool.and_eq_true, decide_eq_true_eq] at h
      obtain ⟨hab, hrest⟩ := h
      have hp := ih hrest
      refine List.pairwise_cons.mpr ⟨?_, hp⟩
      intro x hx
      rcases List.mem_cons.mp hx with rfl | hx
      · exact hab
      · rw [List.pairwise_cons] at hp
        exact cmp_lt_trans hab (hp.1 x hx)

theorem mem_foldr_union {t : Table} :
    ∀ (l : List (Finset Table)), t ∈ l.foldr (· ∪ ·) ∅ ↔ ∃ s ∈ l, t ∈ s := by
  intro l
  induction l with
  | nil => simp
  | cons s l' ih =>
    simp only [List.foldr_cons, Finset.mem_union, ih, List.mem_cons]
    constructor
    · rintro (h | ⟨s', hs', ht⟩)
      · exact ⟨s, Or.inl rfl, h⟩
      · exact ⟨s', Or.inr hs', ht⟩
    · rintro ⟨s', hs' | hs', ht⟩
      · rw [hs'] at ht
        exact Or.inl ht
      · exact Or.inr ⟨s', hs', ht⟩

theorem all_congr_mem {p q : Cond → Bool} : ∀ {l : List Cond},
    (∀ x ∈ l, p x = q x) → l.all p = l.all q := by
  intro l
  induction l with
  | nil => intro _; rfl
  | cons a t ih =>
    intro h
    simp only [List.all_cons]
    rw [h a (by simp), ih (fun x hx => h x (by simp [hx]))]

/-- One layer of the normal-form check: a condition is in normal
(constructor-produced) form when every named query has a present normal
inner and every junction carries at least two canonically sorted members,
none of its own kind, with pairwise distinct named-query names. -/
def normalW (rec : Cond → Bool) : Cond → Bool
  | .value _ _ => true
  | .stringValue _ _ => true
  | .named _ none => false
  | .named _ (some i) => rec i
  | .junction k ms =>
    decide (2 ≤ ms.length) && sortedB ms &&
      ms.all (fun m => rec m && !isJunctionOf k m) &&
      decide (ms.filterMap nameOf?).Nodup

/-- Fuelled normal-form check. -/
def normalF : Nat → Cond → Bool
  | 0, _ => false
  | f + 1, c => normalW (normalF f) c

theorem normalW_congr (c : Cond) {r₁ r₂ : Cond → Bool}
    (hr : ∀ x, szC x < szC c → r₁ x = r₂ x) : normalW r₁ c = normalW r₂ c := by
  cases c with
  | value op l => rfl
  | stringValue op l => rfl
  | named nm i =>
    cases i with
    | none => rfl
    | some ci =>
      simp only [normalW]
      exact hr ci (by simp [szC])
  | junction k ms =>
    simp only [normalW]
    have hall : ms.all (fun m => r₁ m && !isJunctionOf k m)
        = ms.all (fun m => r₂ m && !isJunctionOf k m) := by
      refine all_congr_mem ?_
      intro x hx
      have := szC_le_szL_of_mem hx
      rw [hr x (by simp [szC]; omega)]
    rw [hall]

theorem normalF_congr : ∀ (n : Nat) {f g : Nat} (c : Cond),
    szC c ≤ n → szC c ≤ f → szC c ≤ g → normalF f c = normalF g c := by
  intro n
  induction n with
  | zero =>
    intro f g c hn _ _
    have := one_le_szC c
    omega
  | succ n ih =>
    intro f g c hn hf hg
    obtain ⟨f', rfl⟩ : ∃ f', f = f' + 1 := ⟨f - 1, by have := one_le_szC c; omega⟩
    obtain ⟨g', rfl⟩ : ∃ g', g = g' + 1 := ⟨g - 1, by have := one_le_szC c; omega⟩
    simp only [normalF]
    apply normalW_congr
    intro x hx
    exact ih x (by omega) (by omega) (by omega)

/-- A condition in normal (constructor-produced) form. -/
def normal (c : Cond) : Bool := normalF (szC c) c

theorem normal_unfold (c : Cond) : normal c = normalW normal c := by
  unfold normal
  obtain ⟨m, hm⟩ : ∃ m, szC c = m + 1 := ⟨szC c - 1, by have := one_le_szC c; omega⟩
  rw [hm]
  simp only [normalF]
  apply normalW_congr
  intro x hx
  exact normalF_congr (szC x) x le_rfl (by omega) le_rfl

theorem mkJunction_single_normal_aux : ∀ (m : Nat) (k : Kind) (x : Cond),
    szC x ≤ m → normal x = true → mkJunction k [some x] = x := by
  intro m
  induction m with
  | zero =>
    intro k x hm _
    have := one_le_szC x
    omega
  | succ m ih =>
    intro k x hm hx
    rw [normal_unfold] at hx
    cases x with
    | value op l => exact mkJunction_single_other rfl rfl
    | stringValue op l => exact mkJunction_single_other rfl rfl
    | named nm i =>
      cases i with
      | none => simp [normalW] at hx
      | some ci =>
        have hci : normal ci = true := by simpa [normalW] using hx
        have hflat : flatOf k [some (Cond.named nm (some ci))]
            = [Cond.named nm (some ci)] := by
          rw [flatOf_cons_other (c := Cond.named nm (some ci)) _ rfl, flatOf_nil]
        have hms : memberSet k [some (Cond.named nm (some ci))]
            = [Cond.named nm (some ci)] := by
          rw [memberSet_def, hflat]
          have hfil : List.filter (fun c => !c.isNamed) [Cond.named nm (some ci)] = [] := by
            simp [List.filter, Cond.isNamed]
          have hnm : namesOf [Cond.named nm (some ci)] = [nm] := by
            unfold namesOf
            have : List.filterMap nameOf? [Cond.named nm (some ci)] = [nm] := by
              simp [List.filterMap, nameOf?]
            rw [this, canonS_single]
          have hgr : group nm [Cond.named nm (some ci)] = [Cond.named nm (some ci)] := by
            unfold group
            have : List.filter (fun c => nameOf? c == some nm) [Cond.named nm (some ci)]
                = [Cond.named nm (some ci)] := by
              simp [List.filter, nameOf?]
            rw [this, canonS_single]
          rw [hfil, hnm]
          show canonS Cond.cmp
            ([] ++ [Cond.named nm (some (mkJunction k (innersOf (group nm
              [Cond.named nm (some ci)]))))]) = _
          rw [hgr]
          have hinner : innersOf [Cond.named nm (some ci)] = [some ci] := rfl
          rw [hinner]
          have hszci : szC ci ≤ m := by
            have : szC (Cond.named nm (some ci)) = 2 + szC ci := by simp [szC]
            omega
          rw [ih k ci hszci hci]
          rfl
        rw [mkJunction_eq, hms]
    | junction k' ms =>
      by_cases hk : k' = k
      · subst hk
        simp only [normalW, Bool.and_eq_true, decide_eq_true_eq, List.all_eq_true] at hx
        obtain ⟨⟨⟨hlen, hsort⟩, hall⟩, hnodup⟩ := hx
        have hnosame : ∀ c ∈ ms, isJunctionOf k' c = false := by
          intro c hc
          have := hall c hc
          simp only [Bool.and_eq_true, Bool.not_eq_true'] at this
          exact this.2
        have hnorm : ∀ c ∈ ms, normal c = true := by
          intro c hc
          have := hall c hc
          simp only [Bool.and_eq_true] at this
          exact this.1
        have hflat : flatOf k' [some (Cond.junction k' ms)] = ms := by
          rw [flatOf_cons_same, flatOf_nil, List.append_nil, flattenInto_id hnosame]
        have hszms : szL ms ≤ m := by
          have : szC (Cond.junction k' ms) = 1 + szL ms := by simp [szC]
          omega
        have hmerge_mem : ∀ (n : String) (j : Option Cond), Cond.named n j ∈ ms →
            Cond.named n (some (mkJunction k' (innersOf (group n ms)))) = Cond.named n j := by
          intro n j hc
          have hcn : nameOf? (Cond.named n j) = some n := by simp [nameOf?]
          have hgroup : group n ms = [Cond.named n j] := by
            refine sorted_mem_eq condCmpLaws (sorted_canonS condCmpLaws _) (by simp) ?_
            intro q
            rw [mem_group]
            constructor
            · rintro ⟨hq, hqn⟩
              have := filterMap_nodup_inj hnodup hq hc hqn hcn
              simp [this]
            · intro hq
              rw [List.mem_singleton.mp hq]
              exact ⟨hc, hcn⟩
          have hnc := hnorm _ hc
          rw [normal_unfold] at hnc
          cases j with
          | none => simp [normalW] at hnc
          | some i' =>
            have hni' : normal i' = true := by simpa [normalW] using hnc
            rw [hgroup]
            have hinner : innersOf [Cond.named n (some i')] = [some i'] := rfl
            rw [hinner]
            have hszi : szC i' ≤ m := by
              have h1 : szC (Cond.named n (some i')) = 2 + szC i' := by simp [szC]
              have h2 := szC_le_szL_of_mem hc
              omega
            rw [ih k' i' hszi hni']
        have hms : memberSet k' [some (Cond.junction k' ms)] = ms := by
          rw [memberSet_def, hflat]
          refine canonS_eq_of_sorted condCmpLaws (pairwise_of_sortedB hsort) ?_
          intro y
          simp only [List.mem_append, List.mem_filter]
          constructor
          · rintro (⟨hy, _⟩ | hy)
            · exact hy
            · rw [mem_mergeNamesW] at hy
              obtain ⟨n, hn, rfl⟩ := hy
              obtain ⟨c, hc, hcn⟩ := mem_namesOf.mp hn
              obtain ⟨j, rfl⟩ : ∃ j, c = Cond.named n j := by
                cases c <;> simp [nameOf?] at hcn ⊢
                exact hcn
              rw [hmerge_mem n j hc]
              exact hc
          · intro hy
            by_cases hyn : y.isNamed = true
            · right
              obtain ⟨n, j, rfl⟩ : ∃ n j, y = Cond.named n j := by
                cases y <;> simp [Cond.isNamed] at hyn ⊢
              rw [mem_mergeNamesW]
              have hn : n ∈ namesOf ms := mem_namesOf.mpr ⟨_, hy, by simp [nameOf?]⟩
              exact ⟨n, hn, (hmerge_mem n j hy).symm⟩
            · left
              exact ⟨hy, by simpa using hyn⟩
        rw [mkJunction_eq, hms]
        cases ms with
        | nil => simp at hlen
        | cons a t =>
          cases t with
          | nil => simp at hlen
          | cons b t' => rfl
      · refine mkJunction_single_other rfl ?_
        simp [isJunctionOf, hk]

/-- Merging two same-named queries: the construction collapses to a single
`NamedQuery` whose inner is the same-kind construction of the two inner
conditions. -/
theorem mkJunction_two_named (k : Kind) (n : String) (i₁ i₂ : Option Cond) :
    mkJunction k [some (.named n i₁), some (.named n i₂)]
      = .named n (some (mkJunction k [i₁, i₂])) := by
  have hflat : flatOf k [some (Cond.named n i₁), some (Cond.named n i₂)]
      = [Cond.named n i₁, Cond.named n i₂] := by
    rw [flatOf_cons_other (c := Cond.named n i₁) _ rfl,
      flatOf_cons_other (c := Cond.named n i₂) _ rfl, flatOf_nil]
  have hfil : List.filter (fun c => !c.isNamed) [Cond.named n i₁, Cond.named n i₂] = [] := by
    simp [List.filter, Cond.isNamed]
  have hnm : namesOf [Cond.named n i₁, Cond.named n i₂] = [n] := by
    unfold namesOf
    have h1 : List.filterMap nameOf? [Cond.named n i₁, Cond.named n i₂] = [n, n] := by
      simp [List.filterMap, nameOf?]
    rw [h1]
    show insS strCmp n (insS strCmp n []) = [n]
    simp [insS, strCmp_laws.refl n]
  have hinner : mkJunction k (innersOf (group n [Cond.named n i₁, Cond.named n i₂]))
      = mkJunction k [i₁, i₂] := by
    apply mkJunction_ext
    intro y
    rw [mem_flatOf_innersOf]
    have hmem : ∀ q, q ∈ group n [Cond.named n i₁, Cond.named n i₂] ↔
        q = Cond.named n i₁ ∨ q = Cond.named n i₂ := by
      intro q
      rw [mem_group]
      constructor
      · rintro ⟨hq, _⟩
        simpa using hq
      · rintro (rfl | rfl)
        · exact ⟨by simp, by simp [nameOf?]⟩
        · exact ⟨by simp, by simp [nameOf?]⟩
    have hpair : flatOf k [i₁, i₂] = flatOf k [i₁] ++ flatOf k [i₂] := by
      simpa using flatOf_append k [i₁] [i₂]
    rw [hpair, List.mem_append]
    constructor
    · rintro ⟨q, hq, hy⟩
      rcases (hmem q).mp hq with rfl | rfl
      · exact Or.inl hy
      · exact Or.inr hy
    · rintro (hy | hy)
      · exact ⟨Cond.named n i₁, (hmem _).mpr (Or.inl rfl), hy⟩
      · exact ⟨Cond.named n i₂, (hmem _).mpr (Or.inr rfl), hy⟩
  have hms : memberSet k [some (Cond.named n i₁), some (Cond.named n i₂)]
      = [Cond.named n (some (mkJunction k [i₁, i₂]))] := by
    rw [memberSet_def, hflat, hfil, hnm]
    show canonS Cond.cmp ([] ++ [Cond.named n (some (mkJunction k (innersOf (group n
      [Cond.named n i₁, Cond.named n i₂]))))]) = _
    rw [hinner]
    rfl
  rw [mkJunction_eq, hms]

/-- Commutativity of the two-input construction. -/
theorem mkJunction_pair_comm (k : Kind) (a b : Cond) :
    mkJunction k [some a, some b] = mkJunction k [some b, some a] := by
  apply mkJunction_ext
  intro y
  have h₁ : flatOf k [some a, some b] = flatOf k [some a] ++ flatOf k [some b] := by
    simpa using flatOf_append k [some a] [some b]
  have h₂ : flatOf k [some b, some a] = flatOf k [some b] ++ flatOf k [some a] := by
    simpa using flatOf_append k [some b] [some a]
  rw [h₁, h₂, List.mem_append, List.mem_append]
  exact Or.comm

/-- A junction carrying fewer than two members. -/
def undersizedJunction : Cond → Bool
  | .junction _ ms => decide (ms.length < 2)
  | _ => false

/-- C1 (counterexample): merging `NamedQuery("n", None)` with
`NamedQuery("n", value < 1)` under `Or` yields `NamedQuery("n", value < 1)`,
not `NamedQuery("n", None)` — the absent inner is not an absorbing element
under `Or`. -/
theorem claim_C1_counterexample :
    mkJunction .or [some (.named "n" none), some (.named "n" (some (.value "<" 1)))]
        = .named "n" (some (.value "<" 1)) ∧
      mkJunction .or [some (.named "n" none), some (.named "n" (some (.value "<" 1)))]
        ≠ .named "n" none :=
  ⟨by decide, by decide⟩

/-- C1 (amended): an absent inner acts as the identity element under both
`And`-merge and `Or`-merge: merging `NamedQuery(n, None)` with
`NamedQuery(n, X)` under either kind yields a `NamedQuery` named `n` whose
inner is the singleton construction of `X` (which equals `X` itself for
every normal `X`), never `NamedQuery(n, None)`. -/
theorem claim_C1_amended (k : Kind) (n : String) (X : Cond) :
    mkJunction k [some (.named n none), some (.named n (some X))]
      = .named n (some (mkJunction k [some X])) := by
  rw [mkJunction_two_named k n none (some X), mkJunction_cons_none]

/-- C2 (counterexample): the construction `And()` with no arguments, or
`And(None)`, returns a junction with zero members — an undersized junction
is observable by callers, instead of a neutral no-predicate value. -/
theorem claim_C2_counterexample :
    undersizedJunction (mkJunction .and []) = true ∧
      undersizedJunction (mkJunction .and [none]) = true ∧
      mkJunction .and [none] = .junction .and [] :=
  ⟨by decide, by decide, by decide⟩

/-- C2 (amended): the construction never returns a junction with exactly one
member — a singleton normalized member set collapses to the member itself —
but an empty normalized member set yields a junction with zero members. -/
theorem claim_C2_amended (k : Kind) (opts : List (Option Cond)) (ms : List Cond)
    (h : mkJunction k opts = .junction k ms) : ms.length ≠ 1 := by
  rw [mkJunction_eq] at h
  rcases hms : memberSet k opts with _ | ⟨x, _ | ⟨y, t⟩⟩ <;> rw [hms] at h
  · rw [show (match ([] : List Cond) with | [x] => x | s => Cond.junction k s)
        = Cond.junction k [] from rfl] at h
    injection h with _ h2
    rw [← h2]
    simp
  · rw [show (match [x] with | [x] => x | s => Cond.junction k s) = x from rfl] at h
    subst h
    have hx : Cond.junction k ms ∈ memberSet k opts := by
      rw [hms]
      simp
    have := memberSet_not_same hx
    simp [isJunctionOf] at this
  · rw [show (match x :: y :: t with | [x] => x | s => Cond.junction k s)
        = Cond.junction k (x :: y :: t) from rfl] at h
    injection h with _ h2
    rw [← h2]
    simp

/-- Witness for the amended C2 at a concrete two-member construction. -/
theorem claim_C2_amended_witness :
    mkJunction .and [some (.value "<" 1), some (.value ">" 0)]
        = .junction .and [.value "<" 1, .value ">" 0] ∧
      [Cond.value "<" 1, Cond.value ">" 0].length ≠ 1 :=
  ⟨by decide, claim_C2_amended .and [some (.value "<" 1), some (.value ">" 0)]
    [Cond.value "<" 1, Cond.value ">" 0] (by decide)⟩

/-- C3: two same-named queries merge into a single `NamedQuery` whose inner
is the same-kind junction of the two inner conditions, and
`And(Q("a", V("<",1)), Q("a", V(">",0)))` renders with a single
`object`/`value` join. -/
theorem claim_C3 :
    (∀ (k : Kind) (n : String) (i₁ i₂ : Cond),
      mkJunction k [some (.named n (some i₁)), some (.named n (some i₂))]
        = .named n (some (mkJunction k [some i₁, some i₂]))) ∧
      (mkJunction .and [some (.named "a" (some (.value "<" 1))),
          some (.named "a" (some (.value ">" 0)))]).query
        = "SELECT parent_id FROM object AS o, value AS v WHERE o.name = 'a' AND v.value < 1 AND v.value > 0" := by
  constructor
  · intro k n i₁ i₂
    exact mkJunction_two_named k n (some i₁) (some i₂)
  · decide

/-- C4 (counterexample): applied to the single condition `Q("n")` with an
absent inner, the construction returns `NamedQuery("n", And())` — a named
query wrapping an empty junction — not `Q("n")` itself. -/
theorem claim_C4_counterexample :
    mkJunction .and [some (.named "n" none)] = .named "n" (some (.junction .and [])) ∧
      mkJunction .and [some (.named "n" none)] ≠ .named "n" none :=
  ⟨by decide, by decide⟩

/-- C4 (amended): for every condition `x` in normal (constructor-produced)
form — every named query has a present normal inner, every junction has at
least two canonically sorted members none of its own kind with distinct
named-query names — the junction constructor applied to the single condition
`x` returns `x` itself; it fails on named queries with an absent inner,
which get rewrapped. -/
theorem claim_C4_amended (k : Kind) (x : Cond) (h : normal x = true) :
    mkJunction k [some x] = x :=
  mkJunction_single_normal_aux (szC x) k x le_rfl h

/-- Witness for the amended C4 at a concrete leaf condition. -/
theorem claim_C4_amended_witness :
    normal (Cond.value "<" 1) = true ∧
      mkJunction .and [some (.value "<" 1)] = .value "<" 1 :=
  ⟨by decide, claim_C4_amended .and (Cond.value "<" 1) (by decide)⟩

/-- C5: the construction flattens nested junctions of the same kind —
`And(And(a,b), c)` equals `And(a, b, c)`, hence identical member sets and
identical rendered text — while a junction of the other kind stays a single
member of the normalized member set. -/
theorem claim_C5 :
    (∀ (k : Kind) (a b c : Cond),
      mkJunction k [some (mkJunction k [some a, some b]), some c]
        = mkJunction k [some a, some b, some c]) ∧
      (∀ (ms : List Cond) (c : Cond),
        Cond.junction .or ms ∈ memberSet .and [some (.junction .or ms), some c] ∧
          Cond.junction .and ms ∈ memberSet .or [some (.junction .and ms), some c]) := by
  constructor
  · intro k a b c
    exact mkJunction_reprocess k [some a, some b] [some c]
  · intro ms c
    constructor
    · rw [mem_memberSet]
      left
      refine ⟨?_, rfl⟩
      rw [flatOf_cons_other (k := Kind.and) (c := Cond.junction .or ms) _ rfl]
      simp
    · rw [mem_memberSet]
      left
      refine ⟨?_, rfl⟩
      rw [flatOf_cons_other (k := Kind.or) (c := Cond.junction .and ms) _ rfl]
      simp

/-- C6: junction members are duplicate-free by structural equality —
`And(a, a, b)` equals `And(a, b)`, and every normalized member set has no
duplicates. -/
theorem claim_C6 :
    (∀ (k : Kind) (a b : Cond),
      mkJunction k [some a, some a, some b] = mkJunction k [some a, some b]) ∧
      (∀ (k : Kind) (opts : List (Option Cond)), (memberSet k opts).Nodup) := by
  constructor
  · intro k a b
    apply mkJunction_ext
    intro y
    have h₁ : flatOf k [some a, some a, some b]
        = flatOf k [some a] ++ (flatOf k [some a] ++ flatOf k [some b]) := by
      rw [show ([some a, some a, some b] : List (Option Cond))
            = [some a] ++ ([some a] ++ [some b]) from rfl,
        flatOf_append, flatOf_append]
    have h₂ : flatOf k [some a, some b] = flatOf k [some a] ++ flatOf k [some b] := by
      rw [show ([some a, some b] : List (Option Cond))
            = [some a] ++ [some b] from rfl,
        flatOf_append]
    rw [h₁, h₂]
    simp only [List.mem_append]
    tauto
  · intro k opts
    exact memberSet_nodup k opts

/-- C7: rendering is independent of construction-time insertion order —
`And(a, b)` and `And(b, a)` are the same condition and render to identical
text — because `__str__` joins the members sorted by the canonical order and
wraps the result in parentheses. -/
theorem claim_C7 :
    (∀ (k : Kind) (a b : Cond),
      mkJunction k [some a, some b] = mkJunction k [some b, some a] ∧
        (mkJunction k [some a, some b]).str = (mkJunction k [some b, some a]).str) ∧
      (∀ (k : Kind) (ms : List Cond),
        (Cond.junction k ms).str = "(" ++ String.intercalate (" " ++ k.join ++ " ")
          ((canonS Cond.cmp ms).map Cond.str) ++ ")") := by
  constructor
  · intro k a b
    have h := mkJunction_pair_comm k a b
    exact ⟨h, congrArg Cond.str h⟩
  · intro k ms
    rw [str_unfold]
    rfl

/-- C8: a junction's table footprint is exactly the union of the tables of
its non-named members — a table required only inside a `NamedQuery` member's
inner predicate never appears in it. -/
theorem claim_C8 (k : Kind) (ms : List Cond) (t : Table) :
    t ∈ (Cond.junction k ms).tables ↔ ∃ c ∈ ms, c.isNamed = false ∧ t ∈ c.tables := by
  rw [tables_unfold]
  show t ∈ ((ms.filter fun c => !c.isNamed).map Cond.tables).foldr (· ∪ ·) ∅ ↔ _
  rw [mem_foldr_union]
  constructor
  · rintro ⟨s, hs, ht⟩
    obtain ⟨c, hc, rfl⟩ := List.mem_map.mp hs
    have hcf := List.mem_filter.mp hc
    exact ⟨c, hcf.1, by simpa using hcf.2, ht⟩
  · rintro ⟨c, hc, hcn, ht⟩
    exact ⟨c.tables, List.mem_map.mpr ⟨c, List.mem_filter.mpr ⟨hc, by simp [hcn]⟩, rfl⟩, ht⟩

set_option maxRecDepth 100000 in
/-- C9: `And(Q("a", V("<",1)), Q("b", V(">",0)))` renders with `a` as the
outer `SELECT` testing `o.name = 'a' AND v.value < 1` and with the second
named query as the correlated clause
`id IN (SELECT parent_id FROM object AS o, value AS v WHERE o.name = 'b' AND v.value > 0)`
conjoined into the outer WHERE. -/
theorem claim_C9 :
    (mkJunction .and [some (.named "a" (some (.value "<" 1))),
        some (.named "b" (some (.value ">" 0)))]).query
      = "SELECT parent_id FROM object AS o, value AS v WHERE id IN (SELECT parent_id FROM object AS o, value AS v WHERE o.name = 'b' AND v.value > 0) AND o.name = 'a' AND v.value < 1" := by
  decide

/-- C10: a junction construction whose inputs hold exactly one `NamedQuery`
for the name `n`, with an absent inner, still rewraps it: the normalized
member set holds `NamedQuery(n, And())` — the inner is a same-kind junction
built from zero conditions — and not the input `NamedQuery(n, None)`
unchanged. -/
theorem claim_C10 (k : Kind) (n : String) (c : Cond)
    (h : ∀ x ∈ flatOf k [some c], nameOf? x ≠ some n) :
    Cond.named n (some (.junction k [])) ∈ memberSet k [some (.named n none), some c] ∧
      Cond.named n none ∉ memberSet k [some (.named n none), some c] := by
  have hflat : flatOf k [some (Cond.named n none), some c]
      = Cond.named n none :: flatOf k [some c] := by
    have happ : flatOf k [some (Cond.named n none), some c]
        = flatOf k [some (Cond.named n none)] ++ flatOf k [some c] := by
      simpa using flatOf_append k [some (Cond.named n none)] [some c]
    rw [happ, flatOf_cons_other (c := Cond.named n none) _ rfl, flatOf_nil]
    rfl
  have hn : n ∈ namesOf (flatOf k [some (Cond.named n none), some c]) := by
    rw [hflat]
    exact mem_namesOf.mpr ⟨Cond.named n none, List.mem_cons_self _ _, rfl⟩
  have hgroup : group n (flatOf k [some (Cond.named n none), some c])
      = [Cond.named n none] := by
    rw [hflat]
    refine sorted_mem_eq condCmpLaws (sorted_canonS condCmpLaws _) (by simp) ?_
    intro q
    rw [mem_group]
    constructor
    · rintro ⟨hq, hqn⟩
      rcases List.mem_cons.mp hq with rfl | hq
      · simp
      · exact absurd hqn (h q hq)
    · intro hq
      rw [List.mem_singleton.mp hq]
      exact ⟨by simp, by simp [nameOf?]⟩
  constructor
  · refine mem_memberSet_named.mpr ⟨hn, ?_⟩
    rw [hgroup]
    have hinn : innersOf [Cond.named n none] = [none] := rfl
    rw [hinn, mkJunction_cons_none, mkJunction_nil]
  · intro hmem
    obtain ⟨-, habs⟩ := mem_memberSet_named.mp hmem
    exact Option.noConfusion habs

/-- Witness for C10 at a concrete non-named companion condition. -/
theorem claim_C10_witness :
    (∀ x ∈ flatOf .and [some (.value "<" 1)], nameOf? x ≠ some "n") ∧
      (Cond.named "n" (some (.junction .and [])) ∈
          memberSet .and [some (.named "n" none), some (.value "<" 1)] ∧
        Cond.named "n" none ∉
          memberSet .and [some (.named "n" none), some (.value "<" 1)]) :=
  ⟨by decide, claim_C10 .and "n" (Cond.value "<" 1) (by decide)⟩
